import Mathlib

/-!
Verification of the LibbyBookBackup record-reconciliation engine.

The definitions below are a shallow embedding of the two Python scripts
`scripts/merge_duplicates.py` and `scripts/build_index.py`:

* a `Rec` models one on-disk book-record JSON document, flattened to the
  fields the merge logic reads (`readingJourney.title.text`,
  `readingJourney.author`, `readingJourney.cover.format`,
  `readingJourney.percent`, `highlights`, `bookmarks`, `circulation`)
  plus an opaque bag `other` for every remaining field;
* `mergeGroup` embeds `merge_duplicates.merge_group` (line-identical logic
  appears inlined in `build_index.merge_duplicate_files`);
* `mergePass` embeds the directory transformation performed by
  `merge_duplicates.main` / `build_index.merge_duplicate_files` when every
  write and delete succeeds, and `mergeMainE` the same loop with an explicit
  success oracle for writes and deletes;
* `buildIndexDedup` and the `stats*` functions embed the second-pass
  dedup and statistics aggregation of `build_index.build_index` / `main`.

Python's stable `list.sort` / `sorted` with a key function is modelled by the
insertion sort `sortBy`: both are stable and sort ascending with respect to a
total preorder, which determines the output uniquely.
-/

namespace Libby

/-- One highlight object: `timestamp` and `quote` are the fields the merge
logic reads (`hl.get("timestamp")`, `hl.get("quote", "")`); `payload` stands
for every other field of the object, carried around opaquely. -/
structure HL where
  timestamp : Option Int := none
  quote : Option String := none
  payload : String := ""
deriving DecidableEq, Repr, Inhabited

/-- One bookmark object: only `timestamp` is read (`bm.get("timestamp")`). -/
structure BM where
  timestamp : Option Int := none
  payload : String := ""
deriving DecidableEq, Repr, Inhabited

/-- One parsed book-record JSON document, flattened to the fields the merge
scripts read.  `title`/`author`/`format` are
`readingJourney.title.text` / `readingJourney.author` /
`readingJourney.cover.format`; a `none` means the path is missing, so that
`rj["title"]["text"]` etc. raises and the file is skipped.
`percent` models `readingJourney`'s `"percent"` key: `none` = key absent,
`some none` = key present with JSON null, `some (some v)` = number `v`.
Circulation entries are only ever measured by `len`, so they are opaque
strings.  `other` is the bag of all remaining fields of the document. -/
structure Rec where
  title : Option String := none
  author : Option String := none
  format : Option String := none
  percent : Option (Option Int) := none
  highlights : List HL := []
  bookmarks : List BM := []
  circulation : List String := []
  other : List (String × String) := []
deriving DecidableEq, Repr, Inhabited

/-!  ### Python string comparison

Python compares strings lexicographically by code point.  Lean's built-in
`String.lt` is the same order, but its `Decidable` instance does not reduce
in the kernel, so the embedding uses an executable code-point comparison on
the character lists. -/

/-- Code-point comparison of characters. -/
def charLt (a b : Char) : Bool := decide (a.toNat < b.toNat)

/-- Strict lexicographic order on character lists, by code point. -/
def strLtL : List Char → List Char → Bool
  | [], [] => false
  | [], _ :: _ => true
  | _ :: _, [] => false
  | a :: as, b :: bs => if charLt a b then true else if charLt b a then false else strLtL as bs

/-- Python `a < b` on strings. -/
def strLt (a b : String) : Bool := strLtL a.data b.data

/-- Python `a <= b` on strings (total order: `a <= b ⟺ ¬ b < a`). -/
def strLe (a b : String) : Bool := !strLt b a

theorem charLt_irrefl (a : Char) : charLt a a = false := by
  simp [charLt]

theorem charLt_trans {a b c : Char} (h1 : charLt a b = true) (h2 : charLt b c = true) :
    charLt a c = true := by
  simp only [charLt, decide_eq_true_eq] at *
  exact h1.trans h2

theorem charLt_eq {a b : Char} (h1 : charLt a b = false) (h2 : charLt b a = false) : a = b := by
  simp only [charLt, decide_eq_false_iff_not, Nat.not_lt] at h1 h2
  exact Char.ext (UInt32.ext (Nat.le_antisymm h2 h1))

theorem strLtL_irrefl : ∀ l : List Char, strLtL l l = false
  | [] => rfl
  | a :: as => by simp [strLtL, charLt_irrefl, strLtL_irrefl as]

theorem strLtL_trans : ∀ a b c : List Char,
    strLtL a b = true → strLtL b c = true → strLtL a c = true
  | [], b, c, hab, hbc => by
    cases b with
    | nil => simp [strLtL] at hab
    | cons y ys =>
      cases c with
      | nil => simp [strLtL] at hbc
      | cons z zs => simp [strLtL]
  | _ :: _, [], _, hab, _ => by simp [strLtL] at hab
  | _ :: _, _ :: _, [], _, hbc => by simp [strLtL] at hbc
  | x :: xs, y :: ys, z :: zs, hab, hbc => by
    simp only [strLtL] at hab hbc ⊢
    by_cases hxy : charLt x y = true
    · by_cases hyz : charLt y z = true
      · simp [charLt_trans hxy hyz]
      · by_cases hzy : charLt z y = true
        · simp [hyz, hzy] at hbc
        · have : y = z := charLt_eq (by simpa using hyz) (by simpa using hzy)
          subst this
          simp [hxy]
    · by_cases hyx : charLt y x = true
      · simp [hxy, hyx] at hab
      · have hx : x = y := charLt_eq (by simpa using hxy) (by simpa using hyx)
        subst hx
        simp only [charLt_irrefl] at hab
        simp only [Bool.false_eq_true, if_false] at hab
        by_cases hyz : charLt x z = true
        · simp [hyz]
        · by_cases hzy : charLt z x = true
          · simp [hyz, hzy] at hbc
          · have : x = z := charLt_eq (by simpa using hyz) (by simpa using hzy)
            subst this
            simp only [charLt_irrefl, Bool.false_eq_true, if_false] at hbc ⊢
            exact strLtL_trans xs ys zs hab hbc

theorem strLtL_total : ∀ a b : List Char,
    strLtL a b = true ∨ strLtL b a = true ∨ a = b
  | [], [] => Or.inr (Or.inr rfl)
  | [], _ :: _ => Or.inl (by simp [strLtL])
  | _ :: _, [] => Or.inr (Or.inl (by simp [strLtL]))
  | x :: xs, y :: ys => by
    by_cases hxy : charLt x y = true
    · exact Or.inl (by simp [strLtL, hxy])
    · by_cases hyx : charLt y x = true
      · exact Or.inr (Or.inl (by simp [strLtL, hyx, charLt_irrefl,
          (by simpa using hxy : charLt x y = false)]))
      · have hx : x = y := charLt_eq (by simpa using hxy) (by simpa using hyx)
        subst hx
        rcases strLtL_total xs ys with h | h | h
        · exact Or.inl (by simp [strLtL, charLt_irrefl, h])
        · exact Or.inr (Or.inl (by simp [strLtL, charLt_irrefl, h]))
        · exact Or.inr (Or.inr (by rw [h]))

theorem strLt_irrefl (a : String) : strLt a a = false := strLtL_irrefl a.data

theorem strLt_trans {a b c : String} (h1 : strLt a b = true) (h2 : strLt b c = true) :
    strLt a c = true := strLtL_trans a.data b.data c.data h1 h2

theorem strLt_total (a b : String) : strLt a b = true ∨ strLt b a = true ∨ a = b := by
  rcases strLtL_total a.data b.data with h | h | h
  · exact Or.inl h
  · exact Or.inr (Or.inl h)
  · refine Or.inr (Or.inr ?_)
    cases a; cases b
    exact congrArg String.mk h

theorem strLt_asymm {a b : String} (h : strLt a b = true) : strLt b a = false := by
  by_contra hc
  rw [Bool.not_eq_false] at hc
  have := strLt_trans h hc
  rw [strLt_irrefl] at this
  cases this

theorem strLe_refl (a : String) : strLe a a = true := by
  simp [strLe, strLt_irrefl]

theorem strLe_total (a b : String) : strLe a b = true ∨ strLe b a = true := by
  rcases strLt_total b a with h | h | h
  · exact Or.inr (by simp [strLe, strLt_asymm h])
  · exact Or.inl (by simp [strLe, strLt_asymm h])
  · cases h
    exact Or.inl (strLe_refl _)

theorem strLe_trans {a b c : String} (h1 : strLe a b = true) (h2 : strLe b c = true) :
    strLe a c = true := by
  simp only [strLe, Bool.not_eq_true', Bool.not_eq_false] at *
  by_contra hc
  rw [Bool.not_eq_false] at hc
  rcases strLt_total b a with h | h | h
  · rw [h] at h1; cases h1
  · have := strLt_trans hc h
    rw [h2] at this; cases this
  · subst h
    rw [hc] at h2; cases h2

theorem strLe_antisymm {a b : String} (h1 : strLe a b = true) (h2 : strLe b a = true) : a = b := by
  simp only [strLe, Bool.not_eq_true'] at h1 h2
  rcases strLt_total a b with h | h | h
  · rw [h] at h2; cases h2
  · rw [h] at h1; cases h1
  · exact h

theorem strLt_iff_not_le {a b : String} : strLt a b = true ↔ strLe b a = false := by
  simp [strLe]

/-- The grouping key `(rj["title"]["text"], rj["author"], rj["cover"]["format"])`. -/
abbrev GKey := String × String × String

/-- Key extraction in `main` / `merge_duplicate_files`: any missing field
raises and the file is skipped, modelled by `none`. -/
def recKey (r : Rec) : Option GKey :=
  match r.title, r.author, r.format with
  | some t, some a, some f => some (t, a, f)
  | _, _, _ => none

/-!  ### A stable insertion sort modelling Python `sorted` / `list.sort`

`keep y x = true` means an already-placed `y` stays in front of a newly
inserted `x`.  For Python's ascending `sorted(l, key=k)` this is
`k y ≤ k x`; for `sorted(l, key=k, reverse=True)` it is `k x ≤ k y`.
Both are stable, and a stable sort with respect to a total preorder is
uniquely determined, so `sortBy` agrees with Python's Timsort. -/

def insBy (keep : α → α → Bool) (x : α) : List α → List α
  | [] => [x]
  | y :: ys => if keep y x then y :: insBy keep x ys else x :: y :: ys

def sortBy (keep : α → α → Bool) (l : List α) : List α :=
  l.foldl (fun acc x => insBy keep x acc) []

theorem insBy_perm (keep : α → α → Bool) (x : α) (l : List α) :
    List.Perm (insBy keep x l) (x :: l) := by
  induction l with
  | nil => simp [insBy]
  | cons y ys ih =>
    simp only [insBy]
    by_cases h : keep y x = true
    · simp only [h, if_pos]
      exact ((ih.cons y).trans (List.Perm.swap x y ys))
    · simp [h]

theorem sortBy_perm (keep : α → α → Bool) (l : List α) :
    List.Perm (sortBy keep l) l := by
  suffices h : ∀ (acc : List α), List.Perm (l.foldl (fun acc x => insBy keep x acc) acc) (l.reverse ++ acc) by
    have h0 := h []
    rw [List.append_nil] at h0
    exact h0.trans (List.reverse_perm l)
  induction l with
  | nil => intro acc; simp
  | cons y ys ih =>
    intro acc
    simp only [List.foldl_cons, List.reverse_cons, List.append_assoc, List.singleton_append]
    exact (ih (insBy keep y acc)).trans
      (List.Perm.append_left ys.reverse (insBy_perm keep y acc))

theorem insBy_pairwise (keep : α → α → Bool)
    (htot : ∀ a b, keep a b = true ∨ keep b a = true)
    (htrans : ∀ a b c, keep a b = true → keep b c = true → keep a c = true)
    (x : α) (l : List α)
    (hl : l.Pairwise (fun a b => keep a b = true)) :
    (insBy keep x l).Pairwise (fun a b => keep a b = true) := by
  induction l with
  | nil => simp [insBy]
  | cons y ys ih =>
    simp only [insBy]
    rcases List.pairwise_cons.mp hl with ⟨hy, hys⟩
    by_cases h : keep y x = true
    · simp only [h, if_pos, List.pairwise_cons]
      refine ⟨?_, ih hys⟩
      intro z hz
      have hz' : z ∈ x :: ys := (insBy_perm keep x ys).mem_iff.mp hz
      rcases List.mem_cons.mp hz' with hz' | hz'
      · subst hz'; exact h
      · exact hy z hz'
    · simp only [h, if_neg]
      have hxy : keep x y = true := by
        rcases htot x y with hk | hk
        · exact hk
        · exact absurd hk h
      refine List.pairwise_cons.mpr ⟨?_, hl⟩
      intro z hz
      rcases List.mem_cons.mp hz with hz | hz
      · subst hz; exact hxy
      · exact htrans x y z hxy (hy z hz)

theorem sortBy_pairwise (keep : α → α → Bool)
    (htot : ∀ a b, keep a b = true ∨ keep b a = true)
    (htrans : ∀ a b c, keep a b = true → keep b c = true → keep a c = true)
    (l : List α) :
    (sortBy keep l).Pairwise (fun a b => keep a b = true) := by
  suffices h : ∀ (acc : List α), acc.Pairwise (fun a b => keep a b = true) →
      (l.foldl (fun acc x => insBy keep x acc) acc).Pairwise (fun a b => keep a b = true) by
    exact h [] (by simp)
  induction l with
  | nil => intro acc hacc; simpa using hacc
  | cons y ys ih =>
    intro acc hacc
    exact ih (insBy keep y acc) (insBy_pairwise keep htot htrans y acc hacc)

/-- Inserting an element that every current element may stay in front of
appends it at the end. -/
theorem insBy_append (keep : α → α → Bool) (x : α) (l : List α)
    (h : ∀ y ∈ l, keep y x = true) : insBy keep x l = l ++ [x] := by
  induction l with
  | nil => simp [insBy]
  | cons y ys ih =>
    simp only [insBy, h y (List.mem_cons_self y ys), if_pos, List.cons_append]
    rw [ih (fun z hz => h z (List.mem_cons_of_mem y hz))]

/-- Sorting a list that is already sorted (for the same relation) is the
identity: Python's stable sort never reorders such a list. -/
theorem sortBy_eq_self (keep : α → α → Bool) (l : List α)
    (hl : l.Pairwise (fun a b => keep a b = true)) : sortBy keep l = l := by
  induction l using List.reverseRecOn with
  | nil => rfl
  | append_singleton ys x ih =>
    rcases List.pairwise_append.mp hl with ⟨hys, _, hcross⟩
    show (ys ++ [x]).foldl (fun acc z => insBy keep z acc) [] = ys ++ [x]
    rw [List.foldl_append]
    have hsort : ys.foldl (fun acc z => insBy keep z acc) [] = ys := ih hys
    simp only [List.foldl_cons, List.foldl_nil, hsort]
    exact insBy_append keep x ys (fun y hy => hcross y hy x (List.mem_singleton_self x))

/-! ### `extract_download_date`

Embeds `re.search(r"\(downloaded (\d{4}-\d{2}-\d{2} \d{2}-\d{2})\)", filename)`
as a direct leftmost-match scanner over the character list: `matchAt` tries the
pattern at the head of the list and returns the 16-character capture group,
`searchDate` scans left to right like `re.search`. -/

/-- Match `n` digit characters, returning the remainder. -/
def matchDigits : Nat → List Char → Option (List Char)
  | 0, cs => some cs
  | _ + 1, [] => none
  | n + 1, c :: cs => if c.isDigit then matchDigits n cs else none

/-- Match a literal character sequence, returning the remainder. -/
def matchLit : List Char → List Char → Option (List Char)
  | [], cs => some cs
  | _ :: _, [] => none
  | p :: ps, c :: cs => if c = p then matchLit ps cs else none

/-- Try the full pattern at the current position; on success return the
capture group, i.e. the 16 characters `YYYY-MM-DD HH-MM`. -/
def matchAt (cs : List Char) : Option (List Char) := do
  let r1 ← matchLit "(downloaded ".data cs
  let r2 ← matchDigits 4 r1
  let r3 ← matchLit ['-'] r2
  let r4 ← matchDigits 2 r3
  let r5 ← matchLit ['-'] r4
  let r6 ← matchDigits 2 r5
  let r7 ← matchLit [' '] r6
  let r8 ← matchDigits 2 r7
  let r9 ← matchLit ['-'] r8
  let r10 ← matchDigits 2 r9
  let _ ← matchLit [')'] r10
  some (r1.take 16)

/-- Leftmost match, like `re.search`. -/
def searchDate : List Char → Option (List Char)
  | [] => none
  | c :: cs =>
    match matchAt (c :: cs) with
    | some g => some g
    | none => searchDate cs

/-- The sentinel returned when the filename embeds no recognizable date:
`"9999-99-99 99-99"`, which sorts after every properly formatted date. -/
def sentinelDate : String := "9999-99-99 99-99"

/-- `extract_download_date` of `merge_duplicates.py` (identical to
`_extract_download_date` of `build_index.py`). -/
def extract_download_date (filename : String) : String :=
  match searchDate filename.data with
  | some g => String.mk g
  | none => sentinelDate

example : extract_download_date "Dune (downloaded 2023-05-01 10-30).json" = "2023-05-01 10-30" := by
  decide

example : extract_download_date "Dune.json" = sentinelDate := by decide

/-! ### `merge_group`

Embeds `merge_duplicates.merge_group` (the same logic appears inlined at
lines 91–132 of `build_index.merge_duplicate_files`).  A group element is a
`(filename, parsed record)` pair. -/

/-- `files_data.sort(key=lambda x: extract_download_date(x[0].name))` —
Python's stable ascending sort by the extracted date string. -/
def sortGroup (g : List (String × Rec)) : List (String × Rec) :=
  sortBy (fun a b => strLe (extract_download_date a.1) (extract_download_date b.1)) g

/-- Dedup key of a highlight: `(hl.get("timestamp"), hl.get("quote", ""))`. -/
def hlKey (h : HL) : Option Int × String := (h.timestamp, h.quote.getD "")

/-- The highlight union loop: iterate in order, keep an element iff its
`(timestamp, quote)` key was not seen before. -/
def dedupHL : List HL → List (Option Int × String) → List HL
  | [], _ => []
  | h :: hs, seen =>
    if hlKey h ∈ seen then dedupHL hs seen
    else h :: dedupHL hs (hlKey h :: seen)

/-- The bookmark union loop, keyed by `bm.get("timestamp")` alone. -/
def dedupBM : List BM → List (Option Int) → List BM
  | [], _ => []
  | b :: bs, seen =>
    if b.timestamp ∈ seen then dedupBM bs seen
    else b :: dedupBM bs (b.timestamp :: seen)

/-- `max(circulations, key=len)` — first element with maximal length wins. -/
def bestCirc : List (List String) → List String
  | [] => []
  | x :: xs => xs.foldl (fun b y => if b.length < y.length then y else b) x

/-- The observed progress of one record:
`data["readingJourney"].get("percent", 0) or 0`. -/
def obsPercent (r : Rec) : Int :=
  match r.percent with
  | none => 0
  | some none => 0
  | some (some v) => v

/-- `max(observed percents)` over the (sorted) group. -/
def bestPercent (g : List (String × Rec)) : Int :=
  match (sortGroup g).map (fun p => obsPercent p.2) with
  | [] => 0
  | x :: xs => xs.foldl max x

/-- Sort key of the final highlight list: `x.get("timestamp", 0)`. -/
def hlSortKey (h : HL) : Int := h.timestamp.getD 0

/-- Sort key of the final bookmark list: `x.get("timestamp", 0)`. -/
def bmSortKey (b : BM) : Int := b.timestamp.getD 0

/-- `merge_group(files_data)`: returns `(merged_data, keeper_path,
paths_to_delete)`.  The base is the head of the date-sorted group; the merged
record is a copy of the base with the four reconciled fields replaced
(`merged["readingJourney"]["percent"]` only when the best percent is truthy). -/
def mergeGroup (g : List (String × Rec)) : Rec × String × List String :=
  let sg := sortGroup g
  let base := sg.headD ("", {})
  let hls := sortBy (fun a b => decide (hlSortKey a ≤ hlSortKey b))
    (dedupHL (sg.flatMap (fun p => p.2.highlights)) [])
  let bms := sortBy (fun a b => decide (bmSortKey a ≤ bmSortKey b))
    (dedupBM (sg.flatMap (fun p => p.2.bookmarks)) [])
  let circ := bestCirc (sg.map (fun p => p.2.circulation))
  let bp := bestPercent g
  let merged := { base.2 with
    highlights := hls
    bookmarks := bms
    circulation := circ
    percent := if bp ≠ 0 then some (some bp) else base.2.percent }
  (merged, base.1, (sg.filter (fun p => p.1 ≠ base.1)).map (fun p => p.1))

/-! ### The directory-level merge pass

`main` of `merge_duplicates.py` (and the inlined copy in
`build_index.merge_duplicate_files`): read every `*.json` file in sorted
order, group the parseable ones by `(title, author, format)`, then collapse
every group with more than one member.  A directory is a list of
`(filename, parsed record)` pairs; an unparseable JSON document is a `Rec`
whose key fields are `none` (either way the file is skipped). -/

abbrev Dir := List (String × Rec)

/-- `groups[key].append((f, data))` for a `defaultdict(list)`:
append to the existing group, else create a new group at the end. -/
def addFile (k : GKey) (x : String × Rec) : List (GKey × Dir) → List (GKey × Dir)
  | [] => [(k, [x])]
  | (k', l) :: gs => if k' = k then (k', l ++ [x]) :: gs else (k', l) :: addFile k x gs

/-- The grouping loop: skip records without a key, insert the rest. -/
def groupFiles : Dir → List (GKey × Dir) → List (GKey × Dir)
  | [], gs => gs
  | x :: xs, gs =>
    match recKey x.2 with
    | none => groupFiles xs gs
    | some k => groupFiles xs (addFile k x gs)

def groupsOf (d : Dir) : List (GKey × Dir) := groupFiles d []

/-- `sorted(BOOKS_DIR.glob("*.json"))` — files in ascending filename order. -/
def sortByName (d : Dir) : Dir := sortBy (fun a b => strLe a.1 b.1) d

/-- `{k: v for k, v in groups.items() if len(v) > 1}` (insertion order kept). -/
def dupeGroups (d : Dir) : List (GKey × Dir) :=
  (groupsOf d).filter (fun g => 1 < g.2.length)

/-- Python tuple comparison on the `(title, author, format)` key, used by
`sorted(dupe_groups.items())`. -/
def keyLe (a b : GKey) : Bool :=
  strLt a.1 b.1 ||
    (a.1 == b.1 && (strLt a.2.1 b.2.1 || (a.2.1 == b.2.1 && strLe a.2.2 b.2.2)))

/-- Effect of one loop iteration on the directory, when both the write of the
keeper file and every delete succeed: the keeper's content becomes the merged
record, every path in `paths_to_delete` disappears. -/
def applyGroup (d : Dir) (g : Dir) : Dir :=
  match mergeGroup g with
  | (merged, keeper, toDelete) =>
    (d.map (fun p => if p.1 = keeper then (p.1, merged) else p)).filter
      (fun p => decide (p.1 ∉ toDelete))

/-- The full merge pass of `merge_duplicates.main` on a directory, assuming
every write and delete succeeds (the groups are processed in sorted key
order; their effects are disjoint). -/
def mergePass (d : Dir) : Dir :=
  let files := sortByName d
  let dupes := sortBy (fun a b => keyLe a.1 b.1) (dupeGroups files)
  dupes.foldl (fun acc g => applyGroup acc g.2) files

/-- The `SKIP (parse error): …` diagnostics printed by
`merge_duplicates.main` for every file whose parse or key extraction fails. -/
def mergeSkips (d : Dir) : List String :=
  (sortByName d).filterMap
    (fun p => if recKey p.2 = none then some ("SKIP (parse error): " ++ p.1) else none)

/-! ### The merge loop with write/delete failures

`merge_duplicates.main` wraps no `try` around the keeper write or the
`os.remove` calls, so the first `OSError` propagates out of the group loop.
`mergeMainE` makes that explicit: `wOk name` says whether writing `name`
succeeds, `rOk name` whether removing `name` succeeds; the result is
`.ok (directory, deleted_count)` when the loop finishes (and the summary is
printed), `.error name` when the run dies on file `name`. -/

def deleteFiles (rOk : String → Bool) : List String → Dir × Nat → Except String (Dir × Nat)
  | [], st => .ok st
  | n :: ns, (d, c) =>
    if rOk n then deleteFiles rOk ns (d.filter (fun p => decide (p.1 ≠ n)), c + 1)
    else .error n

def processGroupE (wOk rOk : String → Bool) (st : Dir × Nat) (g : GKey × Dir) :
    Except String (Dir × Nat) :=
  match mergeGroup g.2 with
  | (merged, keeper, toDelete) =>
    if wOk keeper then
      deleteFiles rOk toDelete
        (st.1.map (fun p => if p.1 = keeper then (p.1, merged) else p), st.2)
    else .error keeper

def mergeMainE (wOk rOk : String → Bool) (d : Dir) : Except String (Dir × Nat) :=
  let files := sortByName d
  let dupes := sortBy (fun a b => keyLe a.1 b.1) (dupeGroups files)
  dupes.foldlM (processGroupE wOk rOk) (files, 0)

/-- `build_index.merge_duplicate_files`, with the messages it prints as the
third component: the function prints nothing at all — in particular the
`except Exception: continue` at its grouping loop emits no diagnostic for a
skipped file.  (Its group loop iterates `dupe_groups.values()` in insertion
order and returns the number of files removed.) -/
def merge_duplicate_files (d : Dir) : Dir × Nat × List String :=
  let files := sortByName d
  let res := (dupeGroups files).foldl
    (fun st g =>
      match mergeGroup g.2 with
      | (_, _, toDelete) => (applyGroup st.1 g.2, st.2 + toDelete.length))
    (files, 0)
  (res.1, res.2, [])

/-! ### The Index Builder second pass (`build_index.build_index` / `main`)

An `Entry` is the projection `parse_book` produces from one record file; the
claims below quantify over lists of such entries, which is where the
deduplication (lines 151–161) and the statistics aggregation (lines 176–196)
operate. -/

structure Entry where
  file : String := ""
  titleId : String := ""
  title : String := ""
  url : String := ""
  author : String := ""
  publisher : String := ""
  isbn : String := ""
  format : String := ""
  coverUrl : String := ""
  coverColor : String := ""
  percent : Option Int := none
  highlightCount : Nat := 0
  bookmarkCount : Nat := 0
  firstBorrowed : Option Int := none
  lastActivity : Option Int := none
  libraries : List String := []
  circulationCount : Nat := 0
deriving DecidableEq, Repr, Inhabited

/-- `by_title[k] = book`: a Python dict assignment keeps the original position
of an existing key and appends a fresh key at the end. -/
def dictUpdate (k : String) (v : Entry) : List (String × Entry) → List (String × Entry)
  | [] => [(k, v)]
  | (k', v') :: m => if k' = k then (k, v) :: m else (k', v') :: dictUpdate k v m

/-- `by_title.get(k)`. -/
def dictGet (k : String) (m : List (String × Entry)) : Option Entry :=
  match m.find? (fun p => p.1 == k) with
  | some p => some p.2
  | none => none

/-- One iteration of the dedup loop (lines 153–160 of `build_index.py`). -/
def dedupStep (m : List (String × Entry)) (b : Entry) : List (String × Entry) :=
  if b.titleId = "" then dictUpdate b.file b m
  else
    match dictGet b.titleId m with
    | none => dictUpdate b.titleId b m
    | some ex => if strLt ex.file b.file then dictUpdate b.titleId b m else m

def byTitle (books : List Entry) : List (String × Entry) :=
  books.foldl dedupStep []

/-- `sorted(by_title.values(), key=lambda b: b.get("lastActivity") or 0,
reverse=True)` — the deduplicated entries, most recent activity first. -/
def buildIndexDedup (books : List Entry) : List Entry :=
  sortBy (fun a b => decide (b.lastActivity.getD 0 ≤ a.lastActivity.getD 0))
    ((byTitle books).map (fun p => p.2))

/-- `m[k] = m.get(k, 0) + 1` on a counting dict. -/
def countInc : List (String × Nat) → String → List (String × Nat)
  | [], k => [(k, 1)]
  | (k', c) :: m, k => if k' = k then (k', c + 1) :: m else (k', c) :: countInc m k

/-- `stats["formats"]`: every entry is counted, an empty format string under
the fallback label `"unknown"` (`b["format"] or "unknown"`). -/
def statsFormats (books : List Entry) : List (String × Nat) :=
  books.foldl (fun m b => countInc m (if b.format = "" then "unknown" else b.format)) []

/-- `stats["topAuthors"]` before truncation: entries with an empty author are
not counted at all (`if author:`). -/
def topAuthorsFull (books : List Entry) : List (String × Nat) :=
  books.foldl (fun m b => if b.author = "" then m else countInc m b.author) []

/-- `sorted(stats["topAuthors"].items(), key=lambda x: x[1], reverse=True)[:20]`. -/
def topAuthors (books : List Entry) : List (String × Nat) :=
  (sortBy (fun a b => decide (b.2 ≤ a.2)) (topAuthorsFull books)).take 20

/-- `m.get(k, 0)` on a counting dict. -/
def lookupCount (k : String) (m : List (String × Nat)) : Nat :=
  match m.find? (fun p => p.1 == k) with
  | some p => p.2
  | none => 0

/-! ### Helper lemmas about `mergeGroup` -/

/-- The base pair of a group: head of the date-sorted list. -/
def mergeBase (g : List (String × Rec)) : String × Rec :=
  (sortGroup g).headD ("", {})

theorem sortGroup_perm (g : List (String × Rec)) : List.Perm (sortGroup g) g :=
  sortBy_perm _ g

theorem sortGroup_ne_nil {g : List (String × Rec)} (h : g ≠ []) : sortGroup g ≠ [] := by
  intro hc
  exact h (List.Perm.eq_nil ((sortGroup_perm g).symm.trans (hc ▸ List.Perm.refl _)))

theorem mergeGroup_keeper (g : List (String × Rec)) :
    (mergeGroup g).2.1 = (mergeBase g).1 := rfl

theorem mergeGroup_toDelete (g : List (String × Rec)) :
    (mergeGroup g).2.2 =
      ((sortGroup g).filter (fun p => decide (p.1 ≠ (mergeBase g).1))).map (fun p => p.1) := rfl

theorem mergeGroup_percent (g : List (String × Rec)) :
    (mergeGroup g).1.percent =
      if bestPercent g ≠ 0 then some (some (bestPercent g)) else (mergeBase g).2.percent := rfl

theorem mergeGroup_title (g : List (String × Rec)) :
    (mergeGroup g).1.title = (mergeBase g).2.title := rfl

theorem mergeGroup_author (g : List (String × Rec)) :
    (mergeGroup g).1.author = (mergeBase g).2.author := rfl

theorem mergeGroup_format (g : List (String × Rec)) :
    (mergeGroup g).1.format = (mergeBase g).2.format := rfl

theorem mergeGroup_other (g : List (String × Rec)) :
    (mergeGroup g).1.other = (mergeBase g).2.other := rfl

theorem mergeGroup_highlights (g : List (String × Rec)) :
    (mergeGroup g).1.highlights =
      sortBy (fun a b => decide (hlSortKey a ≤ hlSortKey b))
        (dedupHL ((sortGroup g).flatMap (fun p => p.2.highlights)) []) := rfl

theorem mergeGroup_bookmarks (g : List (String × Rec)) :
    (mergeGroup g).1.bookmarks =
      sortBy (fun a b => decide (bmSortKey a ≤ bmSortKey b))
        (dedupBM ((sortGroup g).flatMap (fun p => p.2.bookmarks)) []) := rfl

theorem le_foldl_max : ∀ (l : List Int) (a : Int), a ≤ l.foldl max a := by
  intro l
  induction l with
  | nil => intro a; exact le_refl a
  | cons x xs ih =>
    intro a
    exact le_trans (le_max_left a x) (ih (max a x))

theorem foldl_max_ge_mem : ∀ (l : List Int) (a x : Int), x ∈ l → x ≤ l.foldl max a := by
  intro l
  induction l with
  | nil => intro a x hx; cases hx
  | cons y ys ih =>
    intro a x hx
    rcases List.mem_cons.mp hx with hx | hx
    · subst hx
      exact le_trans (le_max_right a x) (le_foldl_max ys (max a x))
    · exact ih (max a y) x hx

theorem foldl_max_mem : ∀ (l : List Int) (a : Int), l.foldl max a = a ∨ l.foldl max a ∈ l := by
  intro l
  induction l with
  | nil => intro a; exact Or.inl rfl
  | cons x xs ih =>
    intro a
    rw [List.foldl_cons]
    rcases ih (max a x) with h | h
    · rw [h]
      rcases max_cases a x with ⟨hm, _⟩ | ⟨hm, _⟩
      · exact Or.inl hm
      · exact Or.inr (by rw [hm]; exact List.mem_cons_self x xs)
    · exact Or.inr (List.mem_cons_of_mem x h)

/-- C4, part of the claim infrastructure: `bestPercent` is the maximum
observed percent over the group. -/
theorem bestPercent_spec (g : List (String × Rec)) (h : g ≠ []) :
    (∀ p ∈ g, obsPercent p.2 ≤ bestPercent g) ∧ (∃ p ∈ g, obsPercent p.2 = bestPercent g) := by
  have hperm := sortGroup_perm g
  obtain ⟨b, rest, hsg⟩ := List.exists_cons_of_ne_nil (sortGroup_ne_nil h)
  have hbp : bestPercent g = rest.foldl (fun acc y => max acc (obsPercent y.2)) (obsPercent b.2) := by
    show (match (sortGroup g).map (fun p => obsPercent p.2) with
      | [] => 0
      | x :: xs => xs.foldl max x) = _
    rw [hsg]
    simp only [List.map_cons]
    rw [List.foldl_map]
  constructor
  · intro p hp
    have hp' : p ∈ sortGroup g := hperm.mem_iff.mpr hp
    rw [hsg] at hp'
    rw [hbp, ← List.foldl_map]
    rcases List.mem_cons.mp hp' with hp' | hp'
    · subst hp'
      exact le_foldl_max _ _
    · exact foldl_max_ge_mem _ _ _ (List.mem_map_of_mem (fun y => obsPercent y.2) hp')
  · rw [hbp, ← List.foldl_map]
    rcases foldl_max_mem (rest.map (fun y => obsPercent y.2)) (obsPercent b.2) with hm | hm
    · refine ⟨b, ?_, hm.symm⟩
      exact hperm.mem_iff.mp (hsg ▸ List.mem_cons_self b rest)
    · rcases List.mem_map.mp hm with ⟨y, hy, hyv⟩
      refine ⟨y, ?_, hyv⟩
      exact hperm.mem_iff.mp (hsg ▸ List.mem_cons_of_mem b hy)

/-- C4: the merged record's progress percent is the maximum observed percent
across the group whenever that maximum is nonzero; when every observed
percent is zero or absent the base's percent field is untouched. -/
theorem claim_C4 (g : List (String × Rec)) (h : g ≠ []) :
    (∀ p ∈ g, obsPercent p.2 ≤ bestPercent g) ∧
    (∃ p ∈ g, obsPercent p.2 = bestPercent g) ∧
    (bestPercent g ≠ 0 → (mergeGroup g).1.percent = some (some (bestPercent g))) ∧
    (bestPercent g = 0 → (mergeGroup g).1.percent = (mergeBase g).2.percent) := by
  rcases bestPercent_spec g h with ⟨hle, hex⟩
  refine ⟨hle, hex, ?_, ?_⟩
  · intro hz
    rw [mergeGroup_percent, if_pos hz]
  · intro hz
    rw [mergeGroup_percent, if_neg (by simp [hz])]

theorem claim_C4_witness :
    ([(("x (downloaded 2024-01-01 00-00).json" : String),
        ({ title := some "T", author := some "A", format := some "e",
           percent := some (some 40) } : Rec)),
      (("x (downloaded 2024-02-01 00-00).json" : String),
        ({ title := some "T", author := some "A", format := some "e",
           percent := some (some 65) } : Rec))] ≠ ([] : List (String × Rec))) ∧
    (mergeGroup [(("x (downloaded 2024-01-01 00-00).json" : String),
        ({ title := some "T", author := some "A", format := some "e",
           percent := some (some 40) } : Rec)),
      (("x (downloaded 2024-02-01 00-00).json" : String),
        ({ title := some "T", author := some "A", format := some "e",
           percent := some (some 65) } : Rec))]).1.percent = some (some 65) :=
  ⟨by decide,
    (claim_C4 _ (by decide)).2.2.1 (by decide)⟩

/-- C7: every base field other than the four reconciled ones — including the
unknown-field bag `other` — reaches the merged record unmodified. -/
theorem claim_C7 (g : List (String × Rec)) :
    (mergeGroup g).1.title = (mergeBase g).2.title ∧
    (mergeGroup g).1.author = (mergeBase g).2.author ∧
    (mergeGroup g).1.format = (mergeBase g).2.format ∧
    (mergeGroup g).1.other = (mergeBase g).2.other :=
  ⟨mergeGroup_title g, mergeGroup_author g, mergeGroup_format g, mergeGroup_other g⟩

theorem sortGroup_pairwise (g : List (String × Rec)) :
    (sortGroup g).Pairwise
      (fun a b => strLe (extract_download_date a.1) (extract_download_date b.1) = true) :=
  sortBy_pairwise
    (fun a b => strLe (extract_download_date a.1) (extract_download_date b.1))
    (fun a b => strLe_total (extract_download_date a.1) (extract_download_date b.1))
    (fun a b c hab hbc =>
      @strLe_trans (extract_download_date a.1) (extract_download_date b.1)
        (extract_download_date c.1) hab hbc) g

/-- C5 (amended): the surviving base is a group member whose extracted
download-date key is minimal; consequently a member whose key is the sentinel
(filename without the pattern, or a literal `9999-99-99 99-99` stamp) is never
the base when some member has a strictly smaller key. -/
theorem claim_C5 (g : List (String × Rec)) (h : g ≠ []) :
    ((mergeGroup g).2.1 ∈ g.map (fun p => p.1)) ∧
    (∀ p ∈ g, strLe (extract_download_date (mergeGroup g).2.1)
      (extract_download_date p.1) = true) ∧
    (∀ p ∈ g, strLt (extract_download_date p.1) sentinelDate = true →
      extract_download_date (mergeGroup g).2.1 ≠ sentinelDate) := by
  obtain ⟨b, rest, hsg⟩ := List.exists_cons_of_ne_nil (sortGroup_ne_nil h)
  have hkeeper : (mergeGroup g).2.1 = b.1 := by
    rw [mergeGroup_keeper]
    show ((sortGroup g).headD ("", {})).1 = b.1
    rw [hsg]
    rfl
  have hperm := sortGroup_perm g
  have hmin : ∀ p ∈ g, strLe (extract_download_date b.1) (extract_download_date p.1) = true := by
    intro p hp
    have hp' : p ∈ sortGroup g := hperm.mem_iff.mpr hp
    rw [hsg] at hp'
    rcases List.mem_cons.mp hp' with hp' | hp'
    · subst hp'
      exact strLe_refl _
    · have hpw := sortGroup_pairwise g
      rw [hsg] at hpw
      exact (List.pairwise_cons.mp hpw).1 p hp'
  refine ⟨?_, ?_, ?_⟩
  · rw [hkeeper]
    have hb : b ∈ g := hperm.mem_iff.mp (hsg ▸ List.mem_cons_self b rest)
    exact List.mem_map_of_mem (fun p => p.1) hb
  · intro p hp
    rw [hkeeper]
    exact hmin p hp
  · intro p hp hlt hk
    have hle := hmin p hp
    rw [hkeeper] at hk
    rw [hk] at hle
    rw [strLe, hlt] at hle
    cases hle

theorem claim_C5_witness :
    ([(("x1 (downloaded 2024-06-01 00-00).json" : String),
        ({ title := some "T", author := some "A", format := some "e" } : Rec)),
      (("x2 (downloaded 2023-01-01 00-00).json" : String),
        ({ title := some "T", author := some "A", format := some "e" } : Rec))] ≠
      ([] : List (String × Rec))) ∧
    ((mergeGroup [(("x1 (downloaded 2024-06-01 00-00).json" : String),
        ({ title := some "T", author := some "A", format := some "e" } : Rec)),
      (("x2 (downloaded 2023-01-01 00-00).json" : String),
        ({ title := some "T", author := some "A", format := some "e" } : Rec))]).2.1 ∈
      [(("x1 (downloaded 2024-06-01 00-00).json" : String),
        ({ title := some "T", author := some "A", format := some "e" } : Rec)),
      (("x2 (downloaded 2023-01-01 00-00).json" : String),
        ({ title := some "T", author := some "A", format := some "e" } : Rec))].map (fun p => p.1)) :=
  ⟨by decide, (claim_C5 _ (by decide)).1⟩

/-- C5 counterexample to the claim as stated: in this two-member group the
file `b (downloaded 9999-99-99 99-99).json` embeds a recognizable timestamp
pattern, `a.json` embeds none, yet `a.json` is chosen as the base (both
extract to the same sentinel key and the stable sort keeps `a.json` first). -/
theorem claim_C5_counterexample :
    (mergeGroup [(("a.json" : String),
        ({ title := some "T", author := some "A", format := some "e" } : Rec)),
      (("b (downloaded 9999-99-99 99-99).json" : String),
        ({ title := some "T", author := some "A", format := some "e" } : Rec))]).2.1 = "a.json" ∧
    searchDate ("a.json" : String).data = none ∧
    (searchDate ("b (downloaded 9999-99-99 99-99).json" : String).data).isSome = true := by
  refine ⟨?_, ?_, ?_⟩ <;> decide

/-- C6 (amended): the merged highlight and bookmark collections are sorted
ascending by the sort key `x.get("timestamp", 0)` — a missing timestamp is
treated as `0`, not as the lowest possible value. -/
theorem claim_C6 (g : List (String × Rec)) :
    ((mergeGroup g).1.highlights).Pairwise (fun a b => hlSortKey a ≤ hlSortKey b) ∧
    ((mergeGroup g).1.bookmarks).Pairwise (fun a b => bmSortKey a ≤ bmSortKey b) := by
  constructor
  · rw [mergeGroup_highlights]
    refine List.Pairwise.imp (fun h => of_decide_eq_true h) ?_
    exact sortBy_pairwise (fun a b => decide (hlSortKey a ≤ hlSortKey b))
      (fun a b => by
        rcases le_total (hlSortKey a) (hlSortKey b) with h | h
        · exact Or.inl (decide_eq_true h)
        · exact Or.inr (decide_eq_true h))
      (fun a b c hab hbc =>
        decide_eq_true (le_trans (of_decide_eq_true hab) (of_decide_eq_true hbc))) _
  · rw [mergeGroup_bookmarks]
    refine List.Pairwise.imp (fun h => of_decide_eq_true h) ?_
    exact sortBy_pairwise (fun a b => decide (bmSortKey a ≤ bmSortKey b))
      (fun a b => by
        rcases le_total (bmSortKey a) (bmSortKey b) with h | h
        · exact Or.inl (decide_eq_true h)
        · exact Or.inr (decide_eq_true h))
      (fun a b c hab hbc =>
        decide_eq_true (le_trans (of_decide_eq_true hab) (of_decide_eq_true hbc))) _

/-- C6 counterexample to the claim as stated: a highlight with a missing
timestamp keys as `0`, so in this two-file duplicate group it sorts *after*
the other file's highlight with timestamp `-1` instead of before every
timestamped element. -/
theorem claim_C6_counterexample :
    ((mergeGroup [(("f (downloaded 2023-01-01 00-00).json" : String),
        ({ title := some "T", author := some "A", format := some "e",
           highlights := [{ timestamp := some (-1), quote := some "a" }] } : Rec)),
      (("f (downloaded 2024-01-01 00-00).json" : String),
        ({ title := some "T", author := some "A", format := some "e",
           highlights := [{ timestamp := none, quote := some "b" }] } : Rec))]).1.highlights).map
      (fun x => x.timestamp) = [some (-1), none] := by
  decide

/-! ### Lemmas about the union/dedup loops (claim C2) -/

/-- Dedup key of a bookmark: `bm.get("timestamp")`. -/
def bmKey (b : BM) : Option Int := b.timestamp

theorem dedupHL_keys_not_seen : ∀ (l : List HL) (seen : List (Option Int × String)) (x : HL),
    x ∈ dedupHL l seen → hlKey x ∉ seen := by
  intro l
  induction l with
  | nil => intro seen x hx; cases hx
  | cons h hs ih =>
    intro seen x hx
    by_cases hin : hlKey h ∈ seen
    · rw [dedupHL, if_pos hin] at hx
      exact ih seen x hx
    · rw [dedupHL, if_neg hin] at hx
      rcases List.mem_cons.mp hx with hx | hx
      · subst hx; exact hin
      · intro hc
        exact ih (hlKey h :: seen) x hx (List.mem_cons_of_mem _ hc)

theorem dedupHL_keys_nodup : ∀ (l : List HL) (seen : List (Option Int × String)),
    ((dedupHL l seen).map hlKey).Nodup := by
  intro l
  induction l with
  | nil => intro seen; simp [dedupHL]
  | cons h hs ih =>
    intro seen
    by_cases hin : hlKey h ∈ seen
    · rw [dedupHL, if_pos hin]
      exact ih seen
    · rw [dedupHL, if_neg hin]
      rw [List.map_cons, List.nodup_cons]
      refine ⟨?_, ih (hlKey h :: seen)⟩
      intro hc
      rcases List.mem_map.mp hc with ⟨y, hy, hyk⟩
      exact dedupHL_keys_not_seen hs (hlKey h :: seen) y hy (hyk ▸ List.mem_cons_self _ _)

theorem dedupHL_mem_key : ∀ (l : List HL) (seen : List (Option Int × String)) (k : Option Int × String),
    (∃ x ∈ dedupHL l seen, hlKey x = k) ↔ (k ∉ seen ∧ ∃ x ∈ l, hlKey x = k) := by
  intro l
  induction l with
  | nil => intro seen k; simp [dedupHL]
  | cons h hs ih =>
    intro seen k
    by_cases hin : hlKey h ∈ seen
    · rw [dedupHL, if_pos hin, ih seen k]
      constructor
      · rintro ⟨hns, x, hx, hxk⟩
        exact ⟨hns, x, List.mem_cons_of_mem h hx, hxk⟩
      · rintro ⟨hns, x, hx, hxk⟩
        rcases List.mem_cons.mp hx with hx | hx
        · subst hx
          exact absurd (hxk ▸ hin) (fun hc => hns hc)
        · exact ⟨hns, x, hx, hxk⟩
    · rw [dedupHL, if_neg hin]
      constructor
      · rintro ⟨x, hx, hxk⟩
        rcases List.mem_cons.mp hx with hx | hx
        · subst hx
          exact ⟨hxk ▸ hin, x, List.mem_cons_self _ _, hxk⟩
        · rcases (ih (hlKey h :: seen) k).mp ⟨x, hx, hxk⟩ with ⟨hns, y, hy, hyk⟩
          exact ⟨fun hc => hns (List.mem_cons_of_mem _ hc), y, List.mem_cons_of_mem h hy, hyk⟩
      · rintro ⟨hns, x, hx, hxk⟩
        by_cases hkh : k = hlKey h
        · exact ⟨h, List.mem_cons_self _ _, hkh.symm⟩
        · rcases List.mem_cons.mp hx with hx | hx
          · subst hx
            exact absurd hxk.symm hkh
          · rcases (ih (hlKey h :: seen) k).mpr
              ⟨by
                intro hc
                rcases List.mem_cons.mp hc with hc | hc
                · exact hkh hc
                · exact hns hc, x, hx, hxk⟩ with ⟨y, hy, hyk⟩
            exact ⟨y, List.mem_cons_of_mem h hy, hyk⟩

theorem dedupHL_find : ∀ (l : List HL) (seen : List (Option Int × String)) (x : HL),
    x ∈ dedupHL l seen →
    l.find? (fun y => decide (hlKey y = hlKey x)) = some x := by
  intro l
  induction l with
  | nil => intro seen x hx; cases hx
  | cons h hs ih =>
    intro seen x hx
    by_cases hin : hlKey h ∈ seen
    · rw [dedupHL, if_pos hin] at hx
      have hne : hlKey h ≠ hlKey x := by
        intro hc
        exact dedupHL_keys_not_seen hs seen x hx (hc ▸ hin)
      rw [List.find?_cons_of_neg _ (by simpa using hne)]
      exact ih seen x hx
    · rw [dedupHL, if_neg hin] at hx
      rcases List.mem_cons.mp hx with hx | hx
      · subst hx
        rw [List.find?_cons_of_pos _ (by simp)]
      · have hne : hlKey h ≠ hlKey x := by
          intro hc
          exact dedupHL_keys_not_seen hs (hlKey h :: seen) x hx
            (hc ▸ List.mem_cons_self _ _)
        rw [List.find?_cons_of_neg _ (by simpa using hne)]
        exact ih (hlKey h :: seen) x hx

theorem dedupBM_keys_not_seen : ∀ (l : List BM) (seen : List (Option Int)) (x : BM),
    x ∈ dedupBM l seen → bmKey x ∉ seen := by
  intro l
  induction l with
  | nil => intro seen x hx; cases hx
  | cons h hs ih =>
    intro seen x hx
    by_cases hin : h.timestamp ∈ seen
    · rw [dedupBM, if_pos hin] at hx
      exact ih seen x hx
    · rw [dedupBM, if_neg hin] at hx
      rcases List.mem_cons.mp hx with hx | hx
      · subst hx; exact hin
      · intro hc
        exact ih (h.timestamp :: seen) x hx (List.mem_cons_of_mem _ hc)

theorem dedupBM_keys_nodup : ∀ (l : List BM) (seen : List (Option Int)),
    ((dedupBM l seen).map bmKey).Nodup := by
  intro l
  induction l with
  | nil => intro seen; simp [dedupBM]
  | cons h hs ih =>
    intro seen
    by_cases hin : h.timestamp ∈ seen
    · rw [dedupBM, if_pos hin]
      exact ih seen
    · rw [dedupBM, if_neg hin]
      rw [List.map_cons, List.nodup_cons]
      refine ⟨?_, ih (h.timestamp :: seen)⟩
      intro hc
      rcases List.mem_map.mp hc with ⟨y, hy, hyk⟩
      exact dedupBM_keys_not_seen hs (h.timestamp :: seen) y hy (hyk ▸ List.mem_cons_self _ _)

theorem dedupBM_mem_key : ∀ (l : List BM) (seen : List (Option Int)) (k : Option Int),
    (∃ x ∈ dedupBM l seen, bmKey x = k) ↔ (k ∉ seen ∧ ∃ x ∈ l, bmKey x = k) := by
  intro l
  induction l with
  | nil => intro seen k; simp [dedupBM]
  | cons h hs ih =>
    intro seen k
    by_cases hin : h.timestamp ∈ seen
    · rw [dedupBM, if_pos hin, ih seen k]
      constructor
      · rintro ⟨hns, x, hx, hxk⟩
        exact ⟨hns, x, List.mem_cons_of_mem h hx, hxk⟩
      · rintro ⟨hns, x, hx, hxk⟩
        rcases List.mem_cons.mp hx with hx | hx
        · subst hx
          exact absurd (hxk ▸ hin) (fun hc => hns hc)
        · exact ⟨hns, x, hx, hxk⟩
    · rw [dedupBM, if_neg hin]
      constructor
      · rintro ⟨x, hx, hxk⟩
        rcases List.mem_cons.mp hx with hx | hx
        · subst hx
          exact ⟨hxk ▸ hin, x, List.mem_cons_self _ _, hxk⟩
        · rcases (ih (h.timestamp :: seen) k).mp ⟨x, hx, hxk⟩ with ⟨hns, y, hy, hyk⟩
          exact ⟨fun hc => hns (List.mem_cons_of_mem _ hc), y, List.mem_cons_of_mem h hy, hyk⟩
      · rintro ⟨hns, x, hx, hxk⟩
        by_cases hkh : k = bmKey h
        · exact ⟨h, List.mem_cons_self _ _, hkh.symm⟩
        · rcases List.mem_cons.mp hx with hx | hx
          · subst hx
            exact absurd hxk.symm hkh
          · rcases (ih (h.timestamp :: seen) k).mpr
              ⟨by
                intro hc
                rcases List.mem_cons.mp hc with hc | hc
                · exact hkh hc
                · exact hns hc, x, hx, hxk⟩ with ⟨y, hy, hyk⟩
            exact ⟨y, List.mem_cons_of_mem h hy, hyk⟩

theorem dedupBM_find : ∀ (l : List BM) (seen : List (Option Int)) (x : BM),
    x ∈ dedupBM l seen →
    l.find? (fun y => decide (bmKey y = bmKey x)) = some x := by
  intro l
  induction l with
  | nil => intro seen x hx; cases hx
  | cons h hs ih =>
    intro seen x hx
    by_cases hin : h.timestamp ∈ seen
    · rw [dedupBM, if_pos hin] at hx
      have hne : bmKey h ≠ bmKey x := by
        intro hc
        exact dedupBM_keys_not_seen hs seen x hx (hc ▸ hin)
      rw [List.find?_cons_of_neg _ (by simpa using hne)]
      exact ih seen x hx
    · rw [dedupBM, if_neg hin] at hx
      rcases List.mem_cons.mp hx with hx | hx
      · subst hx
        rw [List.find?_cons_of_pos _ (by simp)]
      · have hne : bmKey h ≠ bmKey x := by
          intro hc
          exact dedupBM_keys_not_seen hs (h.timestamp :: seen) x hx
            (hc ▸ List.mem_cons_self _ _)
        rw [List.find?_cons_of_neg _ (by simpa using hne)]
        exact ih (h.timestamp :: seen) x hx

/-- C2: the merged highlight list carries exactly the union of the
`(timestamp, quote)` keys of the group (no key lost), each key exactly once
(no key duplicated), and for each key the copy kept is the first one seen in
the union pass over the date-sorted group; likewise for bookmarks keyed by
timestamp alone. -/
theorem claim_C2 (g : List (String × Rec)) :
    (∀ k, (∃ x ∈ (mergeGroup g).1.highlights, hlKey x = k) ↔
      (∃ p ∈ g, ∃ x ∈ p.2.highlights, hlKey x = k)) ∧
    (((mergeGroup g).1.highlights).map hlKey).Nodup ∧
    (∀ x ∈ (mergeGroup g).1.highlights,
      ((sortGroup g).flatMap (fun p => p.2.highlights)).find?
        (fun y => decide (hlKey y = hlKey x)) = some x) ∧
    (∀ k, (∃ x ∈ (mergeGroup g).1.bookmarks, bmKey x = k) ↔
      (∃ p ∈ g, ∃ x ∈ p.2.bookmarks, bmKey x = k)) ∧
    (((mergeGroup g).1.bookmarks).map bmKey).Nodup ∧
    (∀ x ∈ (mergeGroup g).1.bookmarks,
      ((sortGroup g).flatMap (fun p => p.2.bookmarks)).find?
        (fun y => decide (bmKey y = bmKey x)) = some x) := by
  have hmemH : ∀ x, x ∈ (mergeGroup g).1.highlights ↔
      x ∈ dedupHL ((sortGroup g).flatMap (fun p => p.2.highlights)) [] := by
    intro x
    rw [mergeGroup_highlights]
    exact (sortBy_perm _ _).mem_iff
  have hmemB : ∀ x, x ∈ (mergeGroup g).1.bookmarks ↔
      x ∈ dedupBM ((sortGroup g).flatMap (fun p => p.2.bookmarks)) [] := by
    intro x
    rw [mergeGroup_bookmarks]
    exact (sortBy_perm _ _).mem_iff
  refine ⟨?_, ?_, ?_, ?_, ?_, ?_⟩
  · intro k
    constructor
    · rintro ⟨x, hx, hxk⟩
      rcases (dedupHL_mem_key _ [] k).mp ⟨x, (hmemH x).mp hx, hxk⟩ with ⟨-, y, hy, hyk⟩
      rcases List.mem_flatMap.mp hy with ⟨p, hp, hyp⟩
      exact ⟨p, (sortGroup_perm g).mem_iff.mp hp, y, hyp, hyk⟩
    · rintro ⟨p, hp, x, hx, hxk⟩
      have hxcat : x ∈ (sortGroup g).flatMap (fun p => p.2.highlights) :=
        List.mem_flatMap.mpr ⟨p, (sortGroup_perm g).mem_iff.mpr hp, hx⟩
      rcases (dedupHL_mem_key _ [] k).mpr ⟨List.not_mem_nil k, x, hxcat, hxk⟩
        with ⟨y, hy, hyk⟩
      exact ⟨y, (hmemH y).mpr hy, hyk⟩
  · rw [mergeGroup_highlights]
    have hperm := (sortBy_perm (fun a b => decide (hlSortKey a ≤ hlSortKey b))
      (dedupHL ((sortGroup g).flatMap (fun p => p.2.highlights)) [])).map hlKey
    exact hperm.nodup_iff.mpr (dedupHL_keys_nodup _ [])
  · intro x hx
    exact dedupHL_find _ [] x ((hmemH x).mp hx)
  · intro k
    constructor
    · rintro ⟨x, hx, hxk⟩
      rcases (dedupBM_mem_key _ [] k).mp ⟨x, (hmemB x).mp hx, hxk⟩ with ⟨-, y, hy, hyk⟩
      rcases List.mem_flatMap.mp hy with ⟨p, hp, hyp⟩
      exact ⟨p, (sortGroup_perm g).mem_iff.mp hp, y, hyp, hyk⟩
    · rintro ⟨p, hp, x, hx, hxk⟩
      have hxcat : x ∈ (sortGroup g).flatMap (fun p => p.2.bookmarks) :=
        List.mem_flatMap.mpr ⟨p, (sortGroup_perm g).mem_iff.mpr hp, hx⟩
      rcases (dedupBM_mem_key _ [] k).mpr ⟨List.not_mem_nil k, x, hxcat, hxk⟩
        with ⟨y, hy, hyk⟩
      exact ⟨y, (hmemB y).mpr hy, hyk⟩
  · rw [mergeGroup_bookmarks]
    have hperm := (sortBy_perm (fun a b => decide (bmSortKey a ≤ bmSortKey b))
      (dedupBM ((sortGroup g).flatMap (fun p => p.2.bookmarks)) [])).map bmKey
    exact hperm.nodup_iff.mpr (dedupBM_keys_nodup _ [])
  · intro x hx
    exact dedupBM_find _ [] x ((hmemB x).mp hx)

theorem claim_C2_witness :
    (∃ x ∈ (mergeGroup [(("x1 (downloaded 2024-06-01 00-00).json" : String),
        ({ title := some "T", author := some "A", format := some "e",
           highlights := [{ timestamp := some 4, quote := some "d" }] } : Rec)),
      (("x2 (downloaded 2023-01-01 00-00).json" : String),
        ({ title := some "T", author := some "A", format := some "e",
           highlights := [{ timestamp := some 1, quote := some "a" }] } : Rec))]).1.highlights,
      hlKey x = (some 4, "d")) :=
  (claim_C2 _).1 (some 4, "d") |>.mpr
    ⟨_, List.mem_cons_self _ _, { timestamp := some 4, quote := some "d" }, by decide, by decide⟩

/-! ### Lemmas about the `by_title` dict (claim C3) -/

theorem dictUpdate_keys (k : String) (v : Entry) :
    ∀ m : List (String × Entry),
      (dictUpdate k v m).map Prod.fst =
        if k ∈ m.map Prod.fst then m.map Prod.fst else m.map Prod.fst ++ [k]
  | [] => by simp [dictUpdate]
  | (k', v') :: m => by
    by_cases hk : k' = k
    · subst hk
      simp [dictUpdate]
    · rw [dictUpdate, if_neg hk, List.map_cons, List.map_cons, dictUpdate_keys k v m]
      by_cases hmem : k ∈ m.map Prod.fst
      · rw [if_pos hmem, if_pos (by simp [hmem])]
      · rw [if_neg hmem, if_neg (by simp [hmem, Ne.symm hk]), List.cons_append]

theorem dictUpdate_keys_nodup {k : String} {v : Entry} {m : List (String × Entry)}
    (h : (m.map Prod.fst).Nodup) : ((dictUpdate k v m).map Prod.fst).Nodup := by
  rw [dictUpdate_keys]
  by_cases hmem : k ∈ m.map Prod.fst
  · rwa [if_pos hmem]
  · rw [if_neg hmem]
    exact List.Nodup.append h (List.nodup_singleton k)
      (fun a ha hb => hmem ((List.mem_singleton.mp hb) ▸ ha))

theorem dictUpdate_mem {k : String} {v : Entry} {m : List (String × Entry)}
    (h : (m.map Prod.fst).Nodup) (q : String × Entry) :
    q ∈ dictUpdate k v m ↔ (q = (k, v) ∨ (q ∈ m ∧ q.1 ≠ k)) := by
  induction m with
  | nil => simp [dictUpdate]
  | cons p m ih =>
    rw [List.map_cons, List.nodup_cons] at h
    by_cases hk : p.1 = k
    · have hupdate : dictUpdate k v (p :: m) = (k, v) :: m := by
        obtain ⟨p1, p2⟩ := p
        simp only at hk
        subst hk
        simp [dictUpdate]
      rw [hupdate]
      simp only [List.mem_cons]
      constructor
      · rintro (hq | hq)
        · exact Or.inl hq
        · refine Or.inr ⟨Or.inr hq, ?_⟩
          intro hc
          have hm : q.1 ∈ m.map Prod.fst := List.mem_map_of_mem Prod.fst hq
          rw [hc, ← hk] at hm
          exact h.1 hm
      · rintro (hq | ⟨hq | hq, hne⟩)
        · exact Or.inl hq
        · exact absurd (hq ▸ hk) hne
        · exact Or.inr hq
    · have hupdate : dictUpdate k v (p :: m) = p :: dictUpdate k v m := by
        obtain ⟨p1, p2⟩ := p
        simp only at hk
        simp [dictUpdate, hk]
      rw [hupdate]
      simp only [List.mem_cons, ih h.2]
      constructor
      · rintro (hq | hq | hq)
        · exact Or.inr ⟨Or.inl hq, hq ▸ hk⟩
        · exact Or.inl hq
        · exact Or.inr ⟨Or.inr hq.1, hq.2⟩
      · rintro (hq | ⟨hq | hq, hne⟩)
        · exact Or.inr (Or.inl hq)
        · exact Or.inl hq
        · exact Or.inr (Or.inr ⟨hq, hne⟩)

theorem pair_unique {m : List (String × Entry)} (h : (m.map Prod.fst).Nodup)
    {q q' : String × Entry} (hq : q ∈ m) (hq' : q' ∈ m) (hk : q.1 = q'.1) : q = q' := by
  induction m with
  | nil => cases hq
  | cons p m ih =>
    rw [List.map_cons, List.nodup_cons] at h
    rcases List.mem_cons.mp hq with hq1 | hq1 <;> rcases List.mem_cons.mp hq' with hq2 | hq2
    · rw [hq1, hq2]
    · exfalso
      have hm : q'.1 ∈ m.map Prod.fst := List.mem_map_of_mem Prod.fst hq2
      rw [← hk, hq1] at hm
      exact h.1 hm
    · exfalso
      have hm : q.1 ∈ m.map Prod.fst := List.mem_map_of_mem Prod.fst hq1
      rw [hk, hq2] at hm
      exact h.1 hm
    · exact ih h.2 hq1 hq2

theorem dictGet_eq_some_iff {m : List (String × Entry)} (h : (m.map Prod.fst).Nodup)
    (k : String) (e : Entry) : dictGet k m = some e ↔ (k, e) ∈ m := by
  induction m with
  | nil => simp [dictGet]
  | cons p m ih =>
    rw [List.map_cons, List.nodup_cons] at h
    by_cases hk : p.1 = k
    · rw [dictGet, List.find?_cons_of_pos _ (by simp [hk])]
      simp only [Option.some_inj, List.mem_cons]
      constructor
      · intro he
        exact Or.inl (by rw [← he, ← hk])
      · rintro (he | he)
        · exact congrArg Prod.snd he.symm
        · exfalso
          have hm : k ∈ m.map Prod.fst := by
            have := List.mem_map_of_mem Prod.fst he
            simpa using this
          rw [← hk] at hm
          exact h.1 hm
    · rw [dictGet, List.find?_cons_of_neg _ (by simp [hk])]
      rw [show (match List.find? (fun p => p.1 == k) m with
            | some p => some p.2
            | none => none) = dictGet k m from rfl]
      rw [ih h.2]
      simp only [List.mem_cons]
      constructor
      · exact Or.inr
      · rintro (he | he)
        · exact absurd (congrArg Prod.fst he).symm hk
        · exact he

theorem dictGet_eq_none_iff {m : List (String × Entry)} (k : String) :
    dictGet k m = none ↔ k ∉ m.map Prod.fst := by
  induction m with
  | nil => simp [dictGet]
  | cons p m ih =>
    by_cases hk : p.1 = k
    · rw [dictGet, List.find?_cons_of_pos _ (by simp [hk])]
      simp [hk]
    · rw [dictGet, List.find?_cons_of_neg _ (by simp [hk])]
      rw [show (match List.find? (fun p => p.1 == k) m with
            | some p => some p.2
            | none => none) = dictGet k m from rfl]
      simp [ih, Ne.symm hk]

/-- Invariant of the `by_title` fold of `build_index.build_index` after the
entries in `processed` have been inserted: keys are unique; every binding is
either an empty-`titleId` entry keyed by its filename or a nonempty-`titleId`
entry keyed by its `titleId` and maximal by filename among processed entries
sharing that `titleId`; every processed empty-`titleId` entry is bound at its
filename, and every processed nonempty `titleId` still has some binding. -/
def DedupInv (processed : List Entry) (m : List (String × Entry)) : Prop :=
  ((m.map Prod.fst).Nodup) ∧
  (∀ q ∈ m, q.2 ∈ processed ∧
    ((q.2.titleId = "" ∧ q.1 = q.2.file) ∨
     (q.2.titleId ≠ "" ∧ q.1 = q.2.titleId ∧
       ∀ b ∈ processed, b.titleId = q.1 → strLe b.file q.2.file = true))) ∧
  (∀ b ∈ processed, b.titleId = "" → (b.file, b) ∈ m) ∧
  (∀ b ∈ processed, b.titleId ≠ "" → ∃ e, (b.titleId, e) ∈ m)

theorem dedupStep_inv (processed : List Entry) (b : Entry) (m : List (String × Entry))
    (hfileb : ∀ a ∈ processed, a.file ≠ b.file)
    (hcol1 : b.titleId ≠ "" → ∀ a ∈ processed, b.titleId ≠ a.file)
    (hcol2 : ∀ a ∈ processed, a.titleId ≠ "" → a.titleId ≠ b.file)
    (hinv : DedupInv processed m) :
    DedupInv (processed ++ [b]) (dedupStep m b) := by
  obtain ⟨hknd, hmem, hempty, htid⟩ := hinv
  by_cases hb : b.titleId = ""
  · have hfresh : ∀ q ∈ m, q.1 ≠ b.file := by
      intro q hq hc
      rcases hmem q hq with ⟨hqp, hdisj⟩
      rcases hdisj with ⟨hq0, hq1⟩ | ⟨hq0, hq1, -⟩
      · apply hfileb q.2 hqp
        rw [← hq1]
        exact hc
      · apply hcol2 q.2 hqp hq0
        rw [← hq1]
        exact hc
    rw [dedupStep, if_pos hb]
    refine ⟨dictUpdate_keys_nodup hknd, ?_, ?_, ?_⟩
    · intro q hq
      rcases (@dictUpdate_mem b.file b m hknd q).mp hq with hq' | ⟨hq', -⟩
      · subst hq'
        exact ⟨List.mem_append_right _ (List.mem_singleton_self b), Or.inl ⟨hb, rfl⟩⟩
      · rcases hmem q hq' with ⟨hqp, hdisj⟩
        refine ⟨List.mem_append_left _ hqp, ?_⟩
        rcases hdisj with ⟨hq0, hq1⟩ | ⟨hq0, hq1, hmax⟩
        · exact Or.inl ⟨hq0, hq1⟩
        · refine Or.inr ⟨hq0, hq1, ?_⟩
          intro b' hb' hb'k
          rcases List.mem_append.mp hb' with hb' | hb'
          · exact hmax b' hb' hb'k
          · exfalso
            have hbq := List.mem_singleton.mp hb'
            rw [hbq, hb] at hb'k
            exact hq0 (by rw [← hq1, ← hb'k])
    · intro b' hb' hb'0
      rcases List.mem_append.mp hb' with hb' | hb'
      · exact (@dictUpdate_mem b.file b m hknd (b'.file, b')).mpr
          (Or.inr ⟨hempty b' hb' hb'0, hfileb b' hb'⟩)
      · have hbq := List.mem_singleton.mp hb'
        subst hbq
        exact (@dictUpdate_mem b'.file b' m hknd (b'.file, b')).mpr (Or.inl rfl)
    · intro b' hb' hb'0
      rcases List.mem_append.mp hb' with hb' | hb'
      · rcases htid b' hb' hb'0 with ⟨e, he⟩
        exact ⟨e, (@dictUpdate_mem b.file b m hknd (b'.titleId, e)).mpr
          (Or.inr ⟨he, hcol2 b' hb' hb'0⟩)⟩
      · have hbq := List.mem_singleton.mp hb'
        subst hbq
        exact absurd hb hb'0
  · rw [dedupStep, if_neg hb]
    cases hget : dictGet b.titleId m with
    | none =>
      have hfresh : b.titleId ∉ m.map Prod.fst := (dictGet_eq_none_iff _).mp hget
      show DedupInv (processed ++ [b]) (dictUpdate b.titleId b m)
      refine ⟨dictUpdate_keys_nodup hknd, ?_, ?_, ?_⟩
      · intro q hq
        rcases (@dictUpdate_mem b.titleId b m hknd q).mp hq with hq' | ⟨hq', hne⟩
        · subst hq'
          refine ⟨List.mem_append_right _ (List.mem_singleton_self b),
            Or.inr ⟨hb, rfl, ?_⟩⟩
          intro b' hb' hb'k
          rcases List.mem_append.mp hb' with hb' | hb'
          · exfalso
            by_cases hb'0 : b'.titleId = ""
            · rw [hb'0] at hb'k
              exact hb hb'k.symm
            · rcases htid b' hb' hb'0 with ⟨e, he⟩
              apply hfresh
              have hb'k' : b'.titleId = b.titleId := hb'k
              rw [← hb'k']
              exact List.mem_map_of_mem Prod.fst he
          · have hbq := List.mem_singleton.mp hb'
            subst hbq
            exact strLe_refl _
        · rcases hmem q hq' with ⟨hqp, hdisj⟩
          refine ⟨List.mem_append_left _ hqp, ?_⟩
          rcases hdisj with ⟨hq0, hq1⟩ | ⟨hq0, hq1, hmax⟩
          · exact Or.inl ⟨hq0, hq1⟩
          · refine Or.inr ⟨hq0, hq1, ?_⟩
            intro b' hb' hb'k
            rcases List.mem_append.mp hb' with hb' | hb'
            · exact hmax b' hb' hb'k
            · exfalso
              have hbq := List.mem_singleton.mp hb'
              rw [hbq] at hb'k
              exact hne hb'k.symm
      · intro b' hb' hb'0
        rcases List.mem_append.mp hb' with hb' | hb'
        · refine (@dictUpdate_mem b.titleId b m hknd (b'.file, b')).mpr
            (Or.inr ⟨hempty b' hb' hb'0, ?_⟩)
          exact fun hc => (hcol1 hb b' hb') hc.symm
        · have hbq := List.mem_singleton.mp hb'
          subst hbq
          exact absurd hb'0 (fun h0 => hb h0)
      · intro b' hb' hb'0
        rcases List.mem_append.mp hb' with hb' | hb'
        · rcases htid b' hb' hb'0 with ⟨e, he⟩
          by_cases hk : b'.titleId = b.titleId
          · refine ⟨b, (@dictUpdate_mem b.titleId b m hknd (b'.titleId, b)).mpr
              (Or.inl ?_)⟩
            rw [hk]
          · exact ⟨e, (@dictUpdate_mem b.titleId b m hknd (b'.titleId, e)).mpr
              (Or.inr ⟨he, hk⟩)⟩
        · have hbq := List.mem_singleton.mp hb'
          subst hbq
          exact ⟨b', (@dictUpdate_mem b'.titleId b' m hknd (b'.titleId, b')).mpr (Or.inl rfl)⟩
    | some ex =>
      have hexm : (b.titleId, ex) ∈ m := (dictGet_eq_some_iff hknd _ _).mp hget
      rcases hmem _ hexm with ⟨hexp, hdisj⟩
      have hex : ex.titleId ≠ "" ∧ b.titleId = ex.titleId ∧
          ∀ b' ∈ processed, b'.titleId = b.titleId → strLe b'.file ex.file = true := by
        rcases hdisj with ⟨h0, h1⟩ | ⟨h0, h1, hmax⟩
        · exact absurd h1 (hcol1 hb ex hexp)
        · exact ⟨h0, h1, hmax⟩
      show DedupInv (processed ++ [b])
        (if strLt ex.file b.file = true then dictUpdate b.titleId b m else m)
      by_cases hlt : strLt ex.file b.file = true
      · rw [if_pos hlt]
        have hexb : strLe ex.file b.file = true := by
          rw [strLe, strLt_asymm hlt]
          rfl
        refine ⟨dictUpdate_keys_nodup hknd, ?_, ?_, ?_⟩
        · intro q hq
          rcases (@dictUpdate_mem b.titleId b m hknd q).mp hq with hq' | ⟨hq', hne⟩
          · subst hq'
            refine ⟨List.mem_append_right _ (List.mem_singleton_self b),
              Or.inr ⟨hb, rfl, ?_⟩⟩
            intro b' hb' hb'k
            rcases List.mem_append.mp hb' with hb' | hb'
            · exact strLe_trans (hex.2.2 b' hb' hb'k) hexb
            · have hbq := List.mem_singleton.mp hb'
              subst hbq
              exact strLe_refl _
          · rcases hmem q hq' with ⟨hqp, hdisj'⟩
            refine ⟨List.mem_append_left _ hqp, ?_⟩
            rcases hdisj' with ⟨hq0, hq1⟩ | ⟨hq0, hq1, hmax⟩
            · exact Or.inl ⟨hq0, hq1⟩
            · refine Or.inr ⟨hq0, hq1, ?_⟩
              intro b' hb' hb'k
              rcases List.mem_append.mp hb' with hb' | hb'
              · exact hmax b' hb' hb'k
              · exfalso
                have hbq := List.mem_singleton.mp hb'
                rw [hbq] at hb'k
                exact hne hb'k.symm
        · intro b' hb' hb'0
          rcases List.mem_append.mp hb' with hb' | hb'
          · refine (@dictUpdate_mem b.titleId b m hknd (b'.file, b')).mpr
              (Or.inr ⟨hempty b' hb' hb'0, ?_⟩)
            exact fun hc => (hcol1 hb b' hb') hc.symm
          · have hbq := List.mem_singleton.mp hb'
            subst hbq
            exact absurd hb'0 (fun h0 => hb h0)
        · intro b' hb' hb'0
          rcases List.mem_append.mp hb' with hb' | hb'
          · rcases htid b' hb' hb'0 with ⟨e, he⟩
            by_cases hk : b'.titleId = b.titleId
            · refine ⟨b, (@dictUpdate_mem b.titleId b m hknd (b'.titleId, b)).mpr
                (Or.inl ?_)⟩
              rw [hk]
            · exact ⟨e, (@dictUpdate_mem b.titleId b m hknd (b'.titleId, e)).mpr
                (Or.inr ⟨he, hk⟩)⟩
          · have hbq := List.mem_singleton.mp hb'
            subst hbq
            exact ⟨b', (@dictUpdate_mem b'.titleId b' m hknd (b'.titleId, b')).mpr (Or.inl rfl)⟩
      · rw [if_neg hlt]
        have hble : strLe b.file ex.file = true := by
          rw [strLe]
          rw [Bool.not_eq_true] at hlt
          rw [hlt]
          rfl
        refine ⟨hknd, ?_, ?_, ?_⟩
        · intro q hq
          rcases hmem q hq with ⟨hqp, hdisj'⟩
          refine ⟨List.mem_append_left _ hqp, ?_⟩
          rcases hdisj' with ⟨hq0, hq1⟩ | ⟨hq0, hq1, hmax⟩
          · exact Or.inl ⟨hq0, hq1⟩
          · refine Or.inr ⟨hq0, hq1, ?_⟩
            intro b' hb' hb'k
            rcases List.mem_append.mp hb' with hb' | hb'
            · exact hmax b' hb' hb'k
            · have hbq := List.mem_singleton.mp hb'
              rw [hbq] at hb'k ⊢
              have hqex : q = (b.titleId, ex) :=
                pair_unique hknd hq hexm (show q.1 = (b.titleId, ex).1 from hb'k.symm)
              rw [hqex]
              exact hble
        · intro b' hb' hb'0
          rcases List.mem_append.mp hb' with hb' | hb'
          · exact hempty b' hb' hb'0
          · have hbq := List.mem_singleton.mp hb'
            subst hbq
            exact absurd hb'0 (fun h0 => hb h0)
        · intro b' hb' hb'0
          rcases List.mem_append.mp hb' with hb' | hb'
          · exact htid b' hb' hb'0
          · have hbq := List.mem_singleton.mp hb'
            subst hbq
            exact ⟨ex, hexm⟩

theorem byTitle_inv_aux (rest : List Entry) :
    ∀ (processed : List Entry) (m : List (String × Entry)),
    (((processed ++ rest).map Entry.file).Nodup) →
    (∀ a ∈ processed ++ rest, a.titleId ≠ "" → ∀ c ∈ processed ++ rest, a.titleId ≠ c.file) →
    DedupInv processed m →
    DedupInv (processed ++ rest) (rest.foldl dedupStep m) := by
  induction rest with
  | nil =>
    intro processed m hnd hcol hinv
    simpa using hinv
  | cons b rest ih =>
    intro processed m hnd hcol hinv
    have hmemb : b ∈ processed ++ b :: rest :=
      List.mem_append_right _ (List.mem_cons_self _ _)
    have hfileb : ∀ a ∈ processed, a.file ≠ b.file := by
      intro a ha hc
      have hnd' := hnd
      rw [List.map_append] at hnd'
      rcases List.nodup_append.mp hnd' with ⟨-, -, hdisj⟩
      have h1 : a.file ∈ processed.map Entry.file := List.mem_map_of_mem Entry.file ha
      have h2 : a.file ∈ (b :: rest).map Entry.file := by
        rw [hc]
        exact List.mem_map_of_mem Entry.file (List.mem_cons_self b rest)
      exact hdisj h1 h2
    have hcol1 : b.titleId ≠ "" → ∀ a ∈ processed, b.titleId ≠ a.file :=
      fun hb a ha => hcol b hmemb hb a (List.mem_append_left _ ha)
    have hcol2 : ∀ a ∈ processed, a.titleId ≠ "" → a.titleId ≠ b.file :=
      fun a ha h0 => hcol a (List.mem_append_left _ ha) h0 b hmemb
    have hstep := dedupStep_inv processed b m hfileb hcol1 hcol2 hinv
    have hres := ih (processed ++ [b]) (dedupStep m b)
      (by simpa [List.append_assoc] using hnd)
      (by
        intro a ha h0 c hc
        rw [List.append_assoc, List.singleton_append] at ha hc
        exact hcol a ha h0 c hc)
      hstep
    rw [List.append_assoc, List.singleton_append] at hres
    exact hres

theorem byTitle_inv (books : List Entry)
    (hnd : (books.map Entry.file).Nodup)
    (hcol : ∀ a ∈ books, a.titleId ≠ "" → ∀ c ∈ books, a.titleId ≠ c.file) :
    DedupInv books (byTitle books) := by
  have hbase : DedupInv [] [] := by
    refine ⟨by simp, ?_, ?_, ?_⟩
    · intro q hq
      cases hq
    · intro b hb
      cases hb
    · intro b hb
      cases hb
  have hres := byTitle_inv_aux books [] []
    (by simpa using hnd) (by simpa using hcol) hbase
  simpa using hres

theorem mem_buildIndexDedup {books : List Entry} {e : Entry} :
    e ∈ buildIndexDedup books ↔ ∃ k, (k, e) ∈ byTitle books := by
  rw [buildIndexDedup, (sortBy_perm _ _).mem_iff]
  constructor
  · intro h
    rcases List.mem_map.mp h with ⟨q, hq, hqe⟩
    obtain ⟨k, v⟩ := q
    cases hqe
    exact ⟨k, hq⟩
  · rintro ⟨k, hk⟩
    exact List.mem_map.mpr ⟨(k, e), hk, rfl⟩

/-- C3 (amended): assuming distinct source filenames and that no entry's
non-empty `titleId` coincides with any entry's filename (the dict keys the
two species into disjoint key spaces only under that assumption), the final
index keeps, for each non-empty `titleId`, exactly one entry — the one with
the lexicographically greatest filename — and every empty-`titleId` entry
survives standalone. -/
theorem claim_C3 (books : List Entry)
    (hnd : (books.map Entry.file).Nodup)
    (hcol : ∀ a ∈ books, a.titleId ≠ "" → ∀ c ∈ books, a.titleId ≠ c.file) :
    (∀ b ∈ books, b.titleId = "" → b ∈ buildIndexDedup books) ∧
    (∀ e1 ∈ buildIndexDedup books, ∀ e2 ∈ buildIndexDedup books,
      e1.titleId ≠ "" → e1.titleId = e2.titleId → e1 = e2) ∧
    (∀ e ∈ buildIndexDedup books, e.titleId ≠ "" →
      e ∈ books ∧ ∀ b ∈ books, b.titleId = e.titleId → strLe b.file e.file = true) ∧
    (∀ b ∈ books, b.titleId ≠ "" → ∃ e ∈ buildIndexDedup books, e.titleId = b.titleId) := by
  obtain ⟨hknd, hmem, hempty, htid⟩ := byTitle_inv books hnd hcol
  refine ⟨?_, ?_, ?_, ?_⟩
  · intro b hb hb0
    exact mem_buildIndexDedup.mpr ⟨b.file, hempty b hb hb0⟩
  · intro e1 he1 e2 he2 h10 h12
    rcases mem_buildIndexDedup.mp he1 with ⟨k1, hk1⟩
    rcases mem_buildIndexDedup.mp he2 with ⟨k2, hk2⟩
    have hd1 := (hmem _ hk1).2
    have hd2 := (hmem _ hk2).2
    have hk1e : k1 = e1.titleId := by
      rcases hd1 with ⟨h0, -⟩ | ⟨-, h1, -⟩
      · exact absurd h0 h10
      · exact h1
    have h20 : e2.titleId ≠ "" := by
      rw [← h12]
      exact h10
    have hk2e : k2 = e2.titleId := by
      rcases hd2 with ⟨h0, -⟩ | ⟨-, h1, -⟩
      · exact absurd h0 h20
      · exact h1
    have hkk : k1 = k2 := by
      rw [hk1e, hk2e, h12]
    have := pair_unique hknd hk1 hk2 (by rw [hkk])
    exact congrArg Prod.snd this
  · intro e he h0
    rcases mem_buildIndexDedup.mp he with ⟨k, hk⟩
    rcases hmem _ hk with ⟨hep, hd⟩
    rcases hd with ⟨h1, -⟩ | ⟨-, h1, hmax⟩
    · exact absurd h1 h0
    · refine ⟨hep, ?_⟩
      intro b hb hbk
      apply hmax b hb
      rw [← h1] at hbk
      exact hbk
  · intro b hb hb0
    rcases htid b hb hb0 with ⟨e, he⟩
    rcases hmem _ he with ⟨hep, hd⟩
    rcases hd with ⟨h0, h1⟩ | ⟨h0, h1, -⟩
    · exact absurd (show b.titleId = e.file from h1) (hcol b hb hb0 e hep)
    · exact ⟨e, mem_buildIndexDedup.mpr ⟨b.titleId, he⟩,
        (show b.titleId = e.titleId from h1).symm⟩

/-- C3 counterexample to the claim as stated: entry `e1` has an empty
`titleId` and filename `b.json`; entry `e2` carries `titleId = "b.json"` and
the greater filename `z.json`.  When `e2` is processed it overwrites the
dict slot keyed `b.json` that holds `e1`, so the empty-`titleId` entry does
not survive. -/
theorem claim_C3_counterexample :
    ({ file := "b.json" } : Entry) ∈
      [({ file := "b.json" } : Entry), ({ file := "z.json", titleId := "b.json" } : Entry)] ∧
    ({ file := "b.json" } : Entry) ∉
      buildIndexDedup
        [({ file := "b.json" } : Entry), ({ file := "z.json", titleId := "b.json" } : Entry)] := by
  constructor
  · decide
  · decide

theorem claim_C3_witness :
    (([({ file := "a.json", titleId := "T1" } : Entry),
       ({ file := "b.json", titleId := "T1" } : Entry)].map Entry.file).Nodup) ∧
    (∃ e ∈ buildIndexDedup [({ file := "a.json", titleId := "T1" } : Entry),
       ({ file := "b.json", titleId := "T1" } : Entry)],
      e.titleId = ({ file := "a.json", titleId := "T1" } : Entry).titleId) :=
  ⟨by decide,
    (claim_C3 _ (by decide) (by decide)).2.2.2 _ (List.mem_cons_self _ _) (by decide)⟩

/-! ### Lemmas about the statistics counters (claim C10) -/

theorem lookupCount_nil (k : String) : lookupCount k ([] : List (String × Nat)) = 0 := rfl

theorem lookupCount_cons (k0 : String) (c : Nat) (m : List (String × Nat)) (k : String) :
    lookupCount k ((k0, c) :: m) = if k0 = k then c else lookupCount k m := by
  by_cases h : k0 = k
  · rw [lookupCount, List.find?_cons_of_pos _ (by simpa using h), if_pos h]
  · rw [lookupCount, List.find?_cons_of_neg _ (by simpa using h), if_neg h]
    rfl

theorem countInc_lookup : ∀ (m : List (String × Nat)) (k k' : String),
    lookupCount k (countInc m k') = if k = k' then lookupCount k m + 1 else lookupCount k m
  | [], k, k' => by
    show lookupCount k [(k', 1)] = _
    rw [lookupCount_cons, lookupCount_nil]
    by_cases hk : k = k'
    · rw [if_pos hk.symm, if_pos hk]
    · rw [if_neg (fun hc => hk hc.symm), if_neg hk]
  | (k0, c) :: m, k, k' => by
    by_cases h0 : k0 = k'
    · rw [countInc, if_pos h0, lookupCount_cons, lookupCount_cons]
      by_cases hk : k0 = k
      · rw [if_pos hk, if_pos hk, if_pos ((hk.symm).trans h0)]
      · rw [if_neg hk, if_neg hk, if_neg (by
          intro hc
          exact hk (h0.symm ▸ hc.symm : k0 = k))]
    · rw [countInc, if_neg h0, lookupCount_cons, lookupCount_cons, countInc_lookup m k k']
      by_cases hk : k0 = k
      · rw [if_pos hk, if_pos hk, if_neg (by
          intro hc
          exact h0 (hk.trans hc))]
      · rw [if_neg hk, if_neg hk]

theorem countInc_keys : ∀ (m : List (String × Nat)) (k' k : String),
    k ∈ (countInc m k').map Prod.fst ↔ (k ∈ m.map Prod.fst ∨ k = k')
  | [], k', k => by
    show k ∈ [(k', 1)].map Prod.fst ↔ _
    simp [eq_comm]
  | (k0, c) :: m, k', k => by
    by_cases h0 : k0 = k'
    · rw [countInc, if_pos h0]
      simp only [List.map_cons, List.mem_cons]
      constructor
      · rintro (hk | hk)
        · exact Or.inl (Or.inl hk)
        · exact Or.inl (Or.inr hk)
      · rintro ((hk | hk) | hk)
        · exact Or.inl hk
        · exact Or.inr hk
        · exact Or.inl (by rw [hk, ← h0])
    · rw [countInc, if_neg h0]
      simp only [List.map_cons, List.mem_cons]
      rw [countInc_keys m k' k]
      tauto

theorem statsFormats_aux : ∀ (books : List Entry) (m : List (String × Nat)) (k : String),
    lookupCount k (books.foldl
      (fun m b => countInc m (if b.format = "" then "unknown" else b.format)) m) =
    lookupCount k m +
      (books.filter (fun b => (if b.format = "" then "unknown" else b.format) == k)).length
  | [], m, k => by simp
  | b :: books, m, k => by
    rw [List.foldl_cons, statsFormats_aux books _ k, countInc_lookup]
    by_cases hk : k = (if b.format = "" then "unknown" else b.format)
    · rw [if_pos hk, List.filter_cons_of_pos (by simpa using hk.symm)]
      simp only [List.length_cons]
      omega
    · rw [if_neg hk, List.filter_cons_of_neg (by simpa using fun hc => hk hc.symm)]

theorem topAuthorsFull_aux : ∀ (books : List Entry) (m : List (String × Nat)) (a : String),
    a ≠ "" →
    lookupCount a (books.foldl
      (fun m b => if b.author = "" then m else countInc m b.author) m) =
    lookupCount a m + (books.filter (fun b => b.author == a)).length
  | [], m, a, _ => by simp
  | b :: books, m, a, ha => by
    rw [List.foldl_cons]
    by_cases hb : b.author = ""
    · rw [if_pos hb, topAuthorsFull_aux books m a ha,
        List.filter_cons_of_neg (by
          simp only [beq_iff_eq]
          intro hc
          exact ha (by rw [← hc, hb]))]
    · rw [if_neg hb, topAuthorsFull_aux books _ a ha, countInc_lookup]
      by_cases hk : a = b.author
      · rw [if_pos hk, List.filter_cons_of_pos (by simpa using hk.symm)]
        simp only [List.length_cons]
        omega
      · rw [if_neg hk, List.filter_cons_of_neg (by simpa using fun hc => hk hc.symm)]

theorem topAuthorsFull_keys_aux : ∀ (books : List Entry) (m : List (String × Nat)),
    (∀ k ∈ m.map Prod.fst, k ≠ "") →
    ∀ k ∈ (books.foldl
      (fun m b => if b.author = "" then m else countInc m b.author) m).map Prod.fst, k ≠ ""
  | [], m, hm => hm
  | b :: books, m, hm => by
    rw [List.foldl_cons]
    by_cases hb : b.author = ""
    · rw [if_pos hb]
      exact topAuthorsFull_keys_aux books m hm
    · rw [if_neg hb]
      refine topAuthorsFull_keys_aux books _ ?_
      intro k hk
      rcases (countInc_keys m b.author k).mp hk with hk | hk
      · exact hm k hk
      · rw [hk]
        exact hb

/-- C10: an empty author contributes nothing to `topAuthors` (every key of
the truncated mapping is a non-empty author, and each non-empty author's
count is exactly its number of entries), whereas an empty format is still
counted in `formats` under the fallback label `"unknown"`. -/
theorem claim_C10 (books : List Entry) :
    (∀ k ∈ (topAuthors books).map Prod.fst, k ≠ "") ∧
    (∀ a, a ≠ "" → lookupCount a (topAuthorsFull books) =
      (books.filter (fun b => b.author == a)).length) ∧
    (lookupCount "unknown" (statsFormats books) =
      (books.filter (fun b => b.format == "" || b.format == "unknown")).length) := by
  refine ⟨?_, ?_, ?_⟩
  · intro k hk
    rcases List.mem_map.mp hk with ⟨q, hq, hqk⟩
    have hq1 : q ∈ sortBy (fun a b => decide (b.2 ≤ a.2)) (topAuthorsFull books) :=
      List.take_subset 20 _ hq
    have hq2 : q ∈ topAuthorsFull books := (sortBy_perm _ _).mem_iff.mp hq1
    have := topAuthorsFull_keys_aux books []
      (by intro k0 hk0; cases hk0) k
      (by rw [← hqk]; exact List.mem_map_of_mem Prod.fst hq2)
    exact this
  · intro a ha
    have := topAuthorsFull_aux books [] a ha
    simpa [lookupCount] using this
  · have := statsFormats_aux books [] "unknown"
    rw [show lookupCount "unknown" ([] : List (String × Nat)) = 0 from rfl, Nat.zero_add] at this
    rw [show statsFormats books = books.foldl
      (fun m b => countInc m (if b.format = "" then "unknown" else b.format)) [] from rfl, this]
    congr 1
    apply List.filter_congr
    intro b _
    by_cases hb : b.format = ""
    · simp [hb]
    · by_cases hu : b.format = "unknown"
      · simp [hb, hu]
      · simp [hb, hu]

theorem claim_C10_witness :
    (("X" : String) ≠ "") ∧
    lookupCount "X" (topAuthorsFull
      [({ author := "X" } : Entry), ({ author := "" } : Entry),
       ({ author := "X", format := "" } : Entry)]) =
    ([({ author := "X" } : Entry), ({ author := "" } : Entry),
      ({ author := "X", format := "" } : Entry)].filter (fun b => b.author == "X")).length :=
  ⟨by decide, (claim_C10 _).2.1 "X" (by decide)⟩

/-! ### Grouping characterization (claims C1, C9) -/

/-- The files of `d` whose grouping key is `k`, in order. -/
def filterKey (k : GKey) (d : Dir) : Dir :=
  d.filter (fun p => decide (recKey p.2 = some k))

/-- The group stored at key `k` (empty list when the key is absent). -/
def lookupGroup (k : GKey) (gs : List (GKey × Dir)) : Dir :=
  ((gs.find? (fun g => decide (g.1 = k))).map (fun g => g.2)).getD []

theorem filterKey_mem {k : GKey} {d : Dir} {p : String × Rec} :
    p ∈ filterKey k d ↔ (p ∈ d ∧ recKey p.2 = some k) := by
  simp [filterKey, List.mem_filter]

theorem filterKey_cons (k : GKey) (p : String × Rec) (d : Dir) :
    filterKey k (p :: d) =
      if recKey p.2 = some k then p :: filterKey k d else filterKey k d := by
  by_cases h : recKey p.2 = some k
  · rw [filterKey, List.filter_cons_of_pos (by simpa using h), if_pos h]
    rfl
  · rw [filterKey, List.filter_cons_of_neg (by simpa using h), if_neg h]
    rfl

theorem addFile_lookup_eq (k : GKey) (x : String × Rec) :
    ∀ gs : List (GKey × Dir), lookupGroup k (addFile k x gs) = lookupGroup k gs ++ [x]
  | [] => by simp [addFile, lookupGroup]
  | (k0, l) :: gs => by
    by_cases h0 : k0 = k
    · subst h0
      rw [addFile, if_pos rfl]
      simp [lookupGroup, List.find?_cons_of_pos]
    · rw [addFile, if_neg h0]
      rw [lookupGroup, List.find?_cons_of_neg _ (by simpa using h0),
        lookupGroup, List.find?_cons_of_neg _ (by simpa using h0)]
      exact addFile_lookup_eq k x gs

theorem addFile_lookup_ne (k k' : GKey) (hk : k' ≠ k) (x : String × Rec) :
    ∀ gs : List (GKey × Dir), lookupGroup k' (addFile k x gs) = lookupGroup k' gs
  | [] => by
    rw [addFile, lookupGroup, List.find?_cons_of_neg _ (by simpa using Ne.symm hk)]
    rfl
  | (k0, l) :: gs => by
    by_cases h0 : k0 = k
    · subst h0
      rw [addFile, if_pos rfl]
      rw [lookupGroup, List.find?_cons_of_neg _ (by simpa using fun hc => hk hc.symm),
        lookupGroup, List.find?_cons_of_neg _ (by simpa using fun hc => hk hc.symm)]
    · rw [addFile, if_neg h0]
      by_cases h1 : k0 = k'
      · subst h1
        rw [lookupGroup, List.find?_cons_of_pos _ (by simp),
          lookupGroup, List.find?_cons_of_pos _ (by simp)]
      · rw [lookupGroup, List.find?_cons_of_neg _ (by simpa using h1),
          lookupGroup, List.find?_cons_of_neg _ (by simpa using h1)]
        exact addFile_lookup_ne k k' hk x gs

theorem addFile_keys (k : GKey) (x : String × Rec) :
    ∀ gs : List (GKey × Dir),
      (addFile k x gs).map Prod.fst =
        if k ∈ gs.map Prod.fst then gs.map Prod.fst else gs.map Prod.fst ++ [k]
  | [] => by simp [addFile]
  | (k0, l) :: gs => by
    by_cases h0 : k0 = k
    · subst h0
      rw [addFile, if_pos rfl]
      simp
    · rw [addFile, if_neg h0, List.map_cons, List.map_cons, addFile_keys k x gs]
      by_cases hmem : k ∈ gs.map Prod.fst
      · rw [if_pos hmem, if_pos (by simp [hmem])]
      · rw [if_neg hmem, if_neg (by simp [hmem, Ne.symm h0]), List.cons_append]

theorem addFile_keys_nodup {k : GKey} {x : String × Rec} {gs : List (GKey × Dir)}
    (h : (gs.map Prod.fst).Nodup) : ((addFile k x gs).map Prod.fst).Nodup := by
  rw [addFile_keys]
  by_cases hmem : k ∈ gs.map Prod.fst
  · rwa [if_pos hmem]
  · rw [if_neg hmem]
    exact List.Nodup.append h (List.nodup_singleton k)
      (fun a ha hb => hmem ((List.mem_singleton.mp hb) ▸ ha))

theorem addFile_nonempty {k : GKey} {x : String × Rec} {gs : List (GKey × Dir)}
    (h : ∀ g ∈ gs, g.2 ≠ []) : ∀ g ∈ addFile k x gs, g.2 ≠ [] := by
  induction gs with
  | nil =>
    intro g hg
    rw [addFile] at hg
    rcases List.mem_singleton.mp hg with rfl
    simp
  | cons g0 gs ih =>
    intro g hg
    obtain ⟨k0, l⟩ := g0
    by_cases h0 : k0 = k
    · subst h0
      rw [addFile, if_pos rfl] at hg
      rcases List.mem_cons.mp hg with rfl | hg
      · simp
      · exact h g (List.mem_cons_of_mem _ hg)
    · rw [addFile, if_neg h0] at hg
      rcases List.mem_cons.mp hg with rfl | hg
      · exact h _ (List.mem_cons_self _ _)
      · exact ih (fun g' hg' => h g' (List.mem_cons_of_mem _ hg')) g hg

theorem groupFiles_lookup : ∀ (d : Dir) (gs : List (GKey × Dir)) (k : GKey),
    lookupGroup k (groupFiles d gs) = lookupGroup k gs ++ filterKey k d
  | [], gs, k => by simp [groupFiles, filterKey]
  | x :: xs, gs, k => by
    rw [groupFiles]
    cases hx : recKey x.2 with
    | none =>
      rw [groupFiles_lookup xs gs k, filterKey_cons, if_neg (by simp [hx])]
    | some k0 =>
      rw [groupFiles_lookup xs (addFile k0 x gs) k, filterKey_cons]
      by_cases hk : k0 = k
      · subst hk
        rw [if_pos hx, addFile_lookup_eq]
        simp
      · rw [if_neg (by simp [hx, hk]), addFile_lookup_ne k0 k (Ne.symm hk)]

theorem groupFiles_keys_nodup : ∀ (d : Dir) (gs : List (GKey × Dir)),
    (gs.map Prod.fst).Nodup → ((groupFiles d gs).map Prod.fst).Nodup
  | [], gs, h => h
  | x :: xs, gs, h => by
    rw [groupFiles]
    cases hx : recKey x.2 with
    | none => exact groupFiles_keys_nodup xs gs h
    | some k0 => exact groupFiles_keys_nodup xs (addFile k0 x gs) (addFile_keys_nodup h)

theorem groupFiles_nonempty : ∀ (d : Dir) (gs : List (GKey × Dir)),
    (∀ g ∈ gs, g.2 ≠ []) → ∀ g ∈ groupFiles d gs, g.2 ≠ []
  | [], gs, h => h
  | x :: xs, gs, h => by
    rw [groupFiles]
    cases hx : recKey x.2 with
    | none => exact groupFiles_nonempty xs gs h
    | some k0 => exact groupFiles_nonempty xs (addFile k0 x gs) (addFile_nonempty h)

theorem lookupGroup_of_mem {gs : List (GKey × Dir)} (h : (gs.map Prod.fst).Nodup)
    {k : GKey} {l : Dir} (hmem : (k, l) ∈ gs) : lookupGroup k gs = l := by
  induction gs with
  | nil => cases hmem
  | cons g0 gs ih =>
    rw [List.map_cons, List.nodup_cons] at h
    rcases List.mem_cons.mp hmem with rfl | hmem
    · rw [lookupGroup, List.find?_cons_of_pos _ (by simp)]
      rfl
    · have hne : g0.1 ≠ k := by
        intro hc
        exact h.1 (hc ▸ List.mem_map_of_mem Prod.fst hmem)
      rw [lookupGroup, List.find?_cons_of_neg _ (by simpa using hne)]
      exact ih h.2 hmem

theorem groupsOf_eq_filterKey {d : Dir} {k : GKey} {l : Dir}
    (hmem : (k, l) ∈ groupsOf d) : l = filterKey k d := by
  have hnd : ((groupsOf d).map Prod.fst).Nodup :=
    groupFiles_keys_nodup d [] (by simp)
  have hthis := lookupGroup_of_mem hnd hmem
  have heq : lookupGroup k (groupsOf d) = lookupGroup k [] ++ filterKey k d :=
    groupFiles_lookup d [] k
  rw [hthis] at heq
  simpa using heq

theorem groupsOf_nonempty {d : Dir} {g : GKey × Dir} (hmem : g ∈ groupsOf d) : g.2 ≠ [] :=
  groupFiles_nonempty d [] (fun _ hg => absurd hg (List.not_mem_nil _)) g hmem

theorem mem_groupsOf_keys {d : Dir} {k : GKey} :
    k ∈ (groupsOf d).map Prod.fst ↔ filterKey k d ≠ [] := by
  constructor
  · intro hk
    rcases List.mem_map.mp hk with ⟨g, hg, hgk⟩
    obtain ⟨k0, l⟩ := g
    cases hgk
    rw [← groupsOf_eq_filterKey hg]
    exact groupsOf_nonempty hg
  · intro hne
    have hl : lookupGroup k (groupsOf d) = filterKey k d := by
      rw [show groupsOf d = groupFiles d [] from rfl, groupFiles_lookup d [] k]
      rfl
    cases hfind : (groupsOf d).find? (fun g => decide (g.1 = k)) with
    | none =>
      exfalso
      apply hne
      rw [← hl, lookupGroup, hfind]
      rfl
    | some g =>
      have hgm := List.mem_of_find?_eq_some hfind
      have hgk : g.1 = k := by
        have := List.find?_some hfind
        simpa using this
      rw [← hgk]
      exact List.mem_map_of_mem Prod.fst hgm

/-! ### Effect of one merge on the directory -/

theorem mergeBase_mem {g : List (String × Rec)} (h : g ≠ []) : mergeBase g ∈ g := by
  obtain ⟨b, rest, hsg⟩ := List.exists_cons_of_ne_nil (sortGroup_ne_nil h)
  have hb : mergeBase g = b := by
    rw [mergeBase, hsg]
    rfl
  rw [hb]
  exact (sortGroup_perm g).mem_iff.mp (hsg ▸ List.mem_cons_self b rest)

theorem mergeGroup_recKey (g : List (String × Rec)) :
    recKey (mergeGroup g).1 = recKey (mergeBase g).2 := by
  simp only [recKey, mergeGroup_title, mergeGroup_author, mergeGroup_format]

theorem mem_toDelete_iff {g : List (String × Rec)} {n : String} :
    n ∈ (mergeGroup g).2.2 ↔ ∃ p ∈ g, p.1 = n ∧ n ≠ (mergeGroup g).2.1 := by
  rw [mergeGroup_toDelete, mergeGroup_keeper]
  simp only [List.mem_map, List.mem_filter, decide_eq_true_eq]
  constructor
  · rintro ⟨p, ⟨hp, hne⟩, hpn⟩
    exact ⟨p, (sortGroup_perm g).mem_iff.mp hp, hpn, hpn ▸ hne⟩
  · rintro ⟨p, hp, hpn, hne⟩
    exact ⟨p, ⟨(sortGroup_perm g).mem_iff.mpr hp, hpn.symm ▸ hne⟩, hpn⟩

theorem keeper_not_mem_toDelete (g : List (String × Rec)) :
    (mergeGroup g).2.1 ∉ (mergeGroup g).2.2 := by
  intro hc
  rcases mem_toDelete_iff.mp hc with ⟨p, -, -, hne⟩
  exact hne rfl

theorem dir_entry_unique {d : Dir} (h : (d.map Prod.fst).Nodup)
    {p q : String × Rec} (hp : p ∈ d) (hq : q ∈ d) (hpq : p.1 = q.1) : p = q := by
  induction d with
  | nil => cases hp
  | cons x d ih =>
    rw [List.map_cons, List.nodup_cons] at h
    rcases List.mem_cons.mp hp with hp1 | hp1 <;> rcases List.mem_cons.mp hq with hq1 | hq1
    · rw [hp1, hq1]
    · exfalso
      have hm : q.1 ∈ d.map Prod.fst := List.mem_map_of_mem Prod.fst hq1
      rw [← hpq, hp1] at hm
      exact h.1 hm
    · exfalso
      have hm : p.1 ∈ d.map Prod.fst := List.mem_map_of_mem Prod.fst hp1
      rw [hpq, hq1] at hm
      exact h.1 hm
    · exact ih h.2 hp1 hq1

theorem applyGroup_eq (d : Dir) (g : List (String × Rec)) :
    applyGroup d g =
      (d.map (fun p => if p.1 = (mergeGroup g).2.1 then (p.1, (mergeGroup g).1) else p)).filter
        (fun p => decide (p.1 ∉ (mergeGroup g).2.2)) := rfl

theorem applyGroup_cons (p : String × Rec) (d : Dir) (g : List (String × Rec)) :
    applyGroup (p :: d) g =
      if p.1 ∈ (mergeGroup g).2.2 then applyGroup d g
      else (if p.1 = (mergeGroup g).2.1 then (p.1, (mergeGroup g).1) else p) :: applyGroup d g := by
  rw [applyGroup_eq, applyGroup_eq, List.map_cons]
  have hfst : (if p.1 = (mergeGroup g).2.1 then ((p.1, (mergeGroup g).1) : String × Rec) else p).1
      = p.1 := by
    by_cases h : p.1 = (mergeGroup g).2.1
    · rw [if_pos h]
    · rw [if_neg h]
  by_cases hT : p.1 ∈ (mergeGroup g).2.2
  · rw [if_pos hT, List.filter_cons_of_neg (by simp [hfst, hT])]
  · rw [if_neg hT, List.filter_cons_of_pos (by simp [hfst, hT])]

theorem mem_applyGroup {g : List (String × Rec)} {d : Dir} {p : String × Rec}
    (hp : p ∈ d) (hT : p.1 ∉ (mergeGroup g).2.2) (hK : p.1 ≠ (mergeGroup g).2.1) :
    p ∈ applyGroup d g := by
  rw [applyGroup_eq]
  refine List.mem_filter.mpr ⟨?_, by simpa using hT⟩
  refine List.mem_map.mpr ⟨p, hp, ?_⟩
  rw [if_neg hK]

theorem applyGroup_names_sublist (d : Dir) (g : List (String × Rec)) :
    ((applyGroup d g).map Prod.fst).Sublist (d.map Prod.fst) := by
  rw [applyGroup_eq]
  have h1 := (List.filter_sublist
    (l := d.map (fun p => if p.1 = (mergeGroup g).2.1 then (p.1, (mergeGroup g).1) else p))
    (p := fun p => decide (p.1 ∉ (mergeGroup g).2.2)))
  have h2 := h1.map Prod.fst
  rw [List.map_map] at h2
  have h3 : d.map (Prod.fst ∘ fun p =>
      if p.1 = (mergeGroup g).2.1 then ((p.1, (mergeGroup g).1) : String × Rec) else p) =
      d.map Prod.fst := by
    apply List.map_congr_left
    intro p _
    by_cases h : p.1 = (mergeGroup g).2.1
    · simp [h]
    · simp [h]
  rwa [h3] at h2

theorem applyGroup_filterKey_ne (g : List (String × Rec)) (k k' : GKey) (hkk : k' ≠ k)
    (H5 : recKey (mergeGroup g).1 = some k) :
    ∀ d : Dir,
    (∀ p ∈ d, p.1 ∈ (mergeGroup g).2.2 → recKey p.2 = some k) →
    (∀ p ∈ d, p.1 = (mergeGroup g).2.1 → recKey p.2 = some k) →
    filterKey k' (applyGroup d g) = filterKey k' d
  | [] => by
    intro H1 H2
    rfl
  | p :: d => by
    intro H1 H2
    have H1' : ∀ q ∈ d, q.1 ∈ (mergeGroup g).2.2 → recKey q.2 = some k :=
      fun q hq => H1 q (List.mem_cons_of_mem p hq)
    have H2' : ∀ q ∈ d, q.1 = (mergeGroup g).2.1 → recKey q.2 = some k :=
      fun q hq => H2 q (List.mem_cons_of_mem p hq)
    have hIH := applyGroup_filterKey_ne g k k' hkk H5 d H1' H2'
    rw [applyGroup_cons]
    by_cases hT : p.1 ∈ (mergeGroup g).2.2
    · rw [if_pos hT, filterKey_cons, if_neg (by
        rw [H1 p (List.mem_cons_self p d) hT]
        intro hc
        exact hkk (Option.some.inj hc).symm)]
      exact hIH
    · rw [if_neg hT]
      by_cases hK : p.1 = (mergeGroup g).2.1
      · rw [if_pos hK, filterKey_cons, filterKey_cons,
          if_neg (by
            rw [show recKey ((p.1, (mergeGroup g).1) : String × Rec).2 = some k from H5]
            intro hc
            exact hkk (Option.some.inj hc).symm),
          if_neg (by
            rw [H2 p (List.mem_cons_self p d) hK]
            intro hc
            exact hkk (Option.some.inj hc).symm)]
        exact hIH
      · rw [if_neg hK, filterKey_cons, filterKey_cons]
        by_cases hpk : recKey p.2 = some k'
        · rw [if_pos hpk, if_pos hpk, hIH]
        · rw [if_neg hpk, if_neg hpk]
          exact hIH

theorem applyGroup_filterKey_self (g : List (String × Rec)) (k : GKey)
    (H5 : recKey (mergeGroup g).1 = some k) :
    ∀ d : Dir,
    (∀ p ∈ d, p.1 ∈ (mergeGroup g).2.2 → recKey p.2 = some k) →
    (∀ p ∈ d, recKey p.2 = some k → (p.1 = (mergeGroup g).2.1 ∨ p.1 ∈ (mergeGroup g).2.2)) →
    ((d.map Prod.fst).Nodup) →
    filterKey k (applyGroup d g) =
      if (mergeGroup g).2.1 ∈ d.map Prod.fst then [((mergeGroup g).2.1, (mergeGroup g).1)]
      else []
  | [] => by
    intro H1 H3 hnd
    rfl
  | p :: d => by
    intro H1 H3 hnd
    rw [List.map_cons, List.nodup_cons] at hnd
    have H1' : ∀ q ∈ d, q.1 ∈ (mergeGroup g).2.2 → recKey q.2 = some k :=
      fun q hq => H1 q (List.mem_cons_of_mem p hq)
    have H3' : ∀ q ∈ d, recKey q.2 = some k → (q.1 = (mergeGroup g).2.1 ∨ q.1 ∈ (mergeGroup g).2.2) :=
      fun q hq => H3 q (List.mem_cons_of_mem p hq)
    have hIH := applyGroup_filterKey_self g k H5 d H1' H3' hnd.2
    rw [applyGroup_cons, List.map_cons]
    by_cases hT : p.1 ∈ (mergeGroup g).2.2
    · rw [if_pos hT, hIH]
      have hpK : p.1 ≠ (mergeGroup g).2.1 := by
        intro hc
        exact keeper_not_mem_toDelete g (hc ▸ hT)
      by_cases hKd : (mergeGroup g).2.1 ∈ d.map Prod.fst
      · rw [if_pos hKd, if_pos (List.mem_cons_of_mem _ hKd)]
      · rw [if_neg hKd, if_neg (by
          intro hc
          rcases List.mem_cons.mp hc with hc | hc
          · exact hpK hc.symm
          · exact hKd hc)]
    · rw [if_neg hT]
      by_cases hK : p.1 = (mergeGroup g).2.1
      · rw [if_pos hK, filterKey_cons, if_pos (show recKey (mergeGroup g).1 = some k from H5)]
      
        have hKd : (mergeGroup g).2.1 ∉ d.map Prod.fst := by
          rw [← hK]
          exact hnd.1
        rw [hIH, if_neg hKd, if_pos (by rw [hK]; exact List.mem_cons_self _ _), hK]
      · rw [if_neg hK, filterKey_cons]
        have hpk : recKey p.2 ≠ some k := by
          intro hc
          rcases H3 p (List.mem_cons_self p d) hc with h | h
          · exact hK h
          · exact hT h
        rw [if_neg hpk, hIH]
        by_cases hKd : (mergeGroup g).2.1 ∈ d.map Prod.fst
        · rw [if_pos hKd, if_pos (List.mem_cons_of_mem _ hKd)]
        · rw [if_neg hKd, if_neg (by
            intro hc
            rcases List.mem_cons.mp hc with hc | hc
            · exact hK hc.symm
            · exact hKd hc)]

/-- Master lemma about the group-merging fold: processing a list of groups
`gs` — each being exactly the key-`k` slice of the directory and nonempty —
shrinks the directory (names form a sublist), leaves exactly one file per
processed key and untouched key-counts otherwise, and never touches a
record without a grouping key. -/
theorem mergeFold_spec : ∀ (gs : List (GKey × Dir)) (d : Dir),
    ((d.map Prod.fst).Nodup) →
    ((gs.map Prod.fst).Nodup) →
    (∀ g ∈ gs, g.2 = filterKey g.1 d ∧ g.2 ≠ []) →
    (((gs.foldl (fun acc g => applyGroup acc g.2) d).map Prod.fst).Sublist (d.map Prod.fst)) ∧
    (∀ k, (filterKey k (gs.foldl (fun acc g => applyGroup acc g.2) d)).length =
      if k ∈ gs.map Prod.fst then 1 else (filterKey k d).length) ∧
    (∀ p ∈ d, recKey p.2 = none → p ∈ gs.foldl (fun acc g => applyGroup acc g.2) d)
  | [], d, hnd, _, _ => by
    refine ⟨List.Sublist.refl _, ?_, ?_⟩
    · intro k
      simp
    · intro p hp _
      simpa using hp
  | g :: gs, d, hnd, hknd, hgs => by
    have hg : g.2 = filterKey g.1 d := (hgs g (List.mem_cons_self g gs)).1
    have hne : g.2 ≠ [] := (hgs g (List.mem_cons_self g gs)).2
    have hkey_mem : ∀ p ∈ g.2, recKey p.2 = some g.1 := by
      intro p hp
      rw [hg] at hp
      exact (filterKey_mem.mp hp).2
    have hsub_mem : ∀ p ∈ g.2, p ∈ d := by
      intro p hp
      rw [hg] at hp
      exact (filterKey_mem.mp hp).1
    have hbase := mergeBase_mem hne
    have H5 : recKey (mergeGroup g.2).1 = some g.1 := by
      rw [mergeGroup_recKey]
      exact hkey_mem _ hbase
    have hKname : (mergeGroup g.2).2.1 = (mergeBase g.2).1 := mergeGroup_keeper g.2
    have H2 : ∀ p ∈ d, p.1 = (mergeGroup g.2).2.1 → recKey p.2 = some g.1 := by
      intro p hp hpk
      have hpe : p = mergeBase g.2 :=
        dir_entry_unique hnd hp (hsub_mem _ hbase) (by rw [hpk, hKname])
      rw [hpe]
      exact hkey_mem _ hbase
    have H1 : ∀ p ∈ d, p.1 ∈ (mergeGroup g.2).2.2 → recKey p.2 = some g.1 := by
      intro p hp hpT
      rcases mem_toDelete_iff.mp hpT with ⟨q, hq, hqn, -⟩
      have hpe : p = q := dir_entry_unique hnd hp (hsub_mem _ hq) (by rw [hqn])
      rw [hpe]
      exact hkey_mem _ hq
    have H3 : ∀ p ∈ d, recKey p.2 = some g.1 →
        (p.1 = (mergeGroup g.2).2.1 ∨ p.1 ∈ (mergeGroup g.2).2.2) := by
      intro p hp hpk
      have hpg : p ∈ g.2 := by
        rw [hg]
        exact filterKey_mem.mpr ⟨hp, hpk⟩
      by_cases hK : p.1 = (mergeGroup g.2).2.1
      · exact Or.inl hK
      · exact Or.inr (mem_toDelete_iff.mpr ⟨p, hpg, rfl, hK⟩)
    have hKd : (mergeGroup g.2).2.1 ∈ d.map Prod.fst := by
      rw [hKname]
      exact List.mem_map_of_mem Prod.fst (hsub_mem _ hbase)
    have hd1self : filterKey g.1 (applyGroup d g.2) =
        [((mergeGroup g.2).2.1, (mergeGroup g.2).1)] := by
      rw [applyGroup_filterKey_self g.2 g.1 H5 d H1 H3 hnd, if_pos hKd]
    have hd1ne : ∀ k, k ≠ g.1 → filterKey k (applyGroup d g.2) = filterKey k d :=
      fun k hk => applyGroup_filterKey_ne g.2 g.1 k hk H5 d H1 H2
    have hsub1 := applyGroup_names_sublist d g.2
    have hnd1 : ((applyGroup d g.2).map Prod.fst).Nodup := hsub1.nodup hnd
    rw [List.map_cons, List.nodup_cons] at hknd
    have hgs1 : ∀ g' ∈ gs, g'.2 = filterKey g'.1 (applyGroup d g.2) ∧ g'.2 ≠ [] := by
      intro g' hg'
      have hne' : g'.1 ≠ g.1 := by
        intro hc
        exact hknd.1 (hc ▸ List.mem_map_of_mem Prod.fst hg')
      refine ⟨?_, (hgs g' (List.mem_cons_of_mem _ hg')).2⟩
      rw [(hgs g' (List.mem_cons_of_mem _ hg')).1, hd1ne g'.1 hne']
    obtain ⟨ihsub, ihlen, ihmem⟩ := mergeFold_spec gs (applyGroup d g.2) hnd1 hknd.2 hgs1
    rw [List.foldl_cons]
    refine ⟨ihsub.trans hsub1, ?_, ?_⟩
    · intro k
      rw [ihlen k]
      by_cases hk : k = g.1
      · subst hk
        rw [if_neg hknd.1, hd1self, if_pos (by
          rw [List.map_cons]
          exact List.mem_cons_self _ _)]
        rfl
      · rw [hd1ne k hk]
        by_cases hkgs : k ∈ gs.map Prod.fst
        · rw [if_pos hkgs, if_pos (by
            rw [List.map_cons]
            exact List.mem_cons_of_mem _ hkgs)]
        · rw [if_neg hkgs, if_neg (by
            rw [List.map_cons]
            intro hc
            rcases List.mem_cons.mp hc with hc | hc
            · exact hk hc
            · exact hkgs hc)]
    · intro p hp h0
      have hpd1 : p ∈ applyGroup d g.2 := by
        refine mem_applyGroup hp ?_ ?_
        · intro hc
          rw [H1 p hp hc] at h0
          simp at h0
        · intro hc
          rw [H2 p hp hc] at h0
          simp at h0
      exact ihmem p hpd1 h0

theorem sortByName_perm (d : Dir) : List.Perm (sortByName d) d := sortBy_perm _ d

theorem sortByName_pairwise (d : Dir) :
    (sortByName d).Pairwise (fun a b => strLe a.1 b.1 = true) :=
  sortBy_pairwise (fun a b => strLe a.1 b.1)
    (fun a b => strLe_total a.1 b.1)
    (fun a b c hab hbc => @strLe_trans a.1 b.1 c.1 hab hbc) d

/-- Combined specification of one full merge pass on a directory with unique
filenames: filenames only disappear (sublist), every `(title, author,
format)` key ends with at most one file — exactly one for each processed
duplicate group, unchanged count otherwise — and unkeyed records survive
untouched. -/
theorem mergePass_spec (d : Dir) (hnd : (d.map Prod.fst).Nodup) :
    (((mergePass d).map Prod.fst).Sublist ((sortByName d).map Prod.fst)) ∧
    (∀ k, (filterKey k (mergePass d)).length =
      if k ∈ (sortBy (fun a b => keyLe a.1 b.1) (dupeGroups (sortByName d))).map Prod.fst
      then 1 else (filterKey k (sortByName d)).length) ∧
    (∀ p ∈ sortByName d, recKey p.2 = none → p ∈ mergePass d) := by
  have hfnd : ((sortByName d).map Prod.fst).Nodup := by
    have hperm := (sortByName_perm d).map Prod.fst
    exact hperm.nodup_iff.mpr hnd
  have hdperm : List.Perm (sortBy (fun a b => keyLe a.1 b.1) (dupeGroups (sortByName d)))
      (dupeGroups (sortByName d)) := sortBy_perm _ _
  have hdknd : ((sortBy (fun a b => keyLe a.1 b.1)
      (dupeGroups (sortByName d))).map Prod.fst).Nodup := by
    have hsub : ((dupeGroups (sortByName d)).map Prod.fst).Sublist
        ((groupsOf (sortByName d)).map Prod.fst) :=
      (List.filter_sublist _).map Prod.fst
    have hnd0 : ((groupsOf (sortByName d)).map Prod.fst).Nodup :=
      groupFiles_keys_nodup (sortByName d) [] (by simp)
    exact (hdperm.map Prod.fst).nodup_iff.mpr (hsub.nodup hnd0)
  have hdprop : ∀ g ∈ sortBy (fun a b => keyLe a.1 b.1) (dupeGroups (sortByName d)),
      g.2 = filterKey g.1 (sortByName d) ∧ g.2 ≠ [] := by
    intro g hg
    have hg1 : g ∈ dupeGroups (sortByName d) := hdperm.mem_iff.mp hg
    have hg2 : g ∈ groupsOf (sortByName d) := List.mem_of_mem_filter hg1
    obtain ⟨k0, l⟩ := g
    refine ⟨groupsOf_eq_filterKey hg2, ?_⟩
    have hlen : 1 < l.length := by
      have := List.of_mem_filter hg1
      simpa using this
    intro hc
    have hc' : l = [] := hc
    rw [hc'] at hlen
    simp at hlen
  have hres := mergeFold_spec (sortBy (fun a b => keyLe a.1 b.1) (dupeGroups (sortByName d)))
    (sortByName d) hfnd hdknd hdprop
  exact hres

/-- C1: the Record Merger is idempotent — after one merge pass every
grouping key has at most one file, so a second pass finds no duplicate
groups and returns the directory unchanged. -/
theorem claim_C1 (d : Dir) (hnd : (d.map Prod.fst).Nodup) :
    mergePass (mergePass d) = mergePass d := by
  obtain ⟨hsub, hlen, -⟩ := mergePass_spec d hnd
  have hfnd : ((sortByName d).map Prod.fst).Nodup := by
    have hperm := (sortByName_perm d).map Prod.fst
    exact hperm.nodup_iff.mpr hnd
  have hmdpw : (mergePass d).Pairwise (fun a b => strLe a.1 b.1 = true) := by
    have h1 : ((sortByName d).map Prod.fst).Pairwise (fun a b => strLe a b = true) :=
      List.pairwise_map.mpr (sortByName_pairwise d)
    exact List.pairwise_map.mp (List.Pairwise.sublist hsub h1)
  have hsmall : ∀ k, (filterKey k (mergePass d)).length ≤ 1 := by
    intro k
    rw [hlen k]
    by_cases hk : k ∈ (sortBy (fun a b => keyLe a.1 b.1)
        (dupeGroups (sortByName d))).map Prod.fst
    · rw [if_pos hk]
    · rw [if_neg hk]
      by_cases hfk : filterKey k (sortByName d) = []
      · rw [hfk]
        exact Nat.zero_le 1
      · have hkk : k ∈ (groupsOf (sortByName d)).map Prod.fst := mem_groupsOf_keys.mpr hfk
        rcases List.mem_map.mp hkk with ⟨g', hg', hg'k⟩
        obtain ⟨k0, l⟩ := g'
        have hg'k' : k0 = k := hg'k
        subst hg'k'
        have hfil : l = filterKey k0 (sortByName d) := groupsOf_eq_filterKey hg'
        by_contra hlen2
        have h1lt : 1 < (filterKey k0 (sortByName d)).length := by omega
        apply hk
        have hdmem : (k0, l) ∈ dupeGroups (sortByName d) := by
          rw [dupeGroups]
          refine List.mem_filter.mpr ⟨hg', ?_⟩
          rw [hfil]
          simpa using h1lt
        have := List.mem_map_of_mem Prod.fst hdmem
        exact ((sortBy_perm (fun a b => keyLe a.1 b.1)
          (dupeGroups (sortByName d))).map Prod.fst).mem_iff.mpr this
  have hsorted_md : sortByName (mergePass d) = mergePass d := sortBy_eq_self _ _ hmdpw
  have hdupes2 : dupeGroups (sortByName (mergePass d)) = [] := by
    rw [hsorted_md, dupeGroups]
    rw [List.filter_eq_nil_iff]
    intro g hg
    obtain ⟨k0, l⟩ := g
    have hfil := groupsOf_eq_filterKey hg
    have hle := hsmall k0
    rw [← hfil] at hle
    simpa using hle
  have hstep : mergePass (mergePass d) =
      (sortBy (fun a b => keyLe a.1 b.1) (dupeGroups (sortByName (mergePass d)))).foldl
        (fun acc g => applyGroup acc g.2) (sortByName (mergePass d)) := rfl
  rw [hstep, hdupes2]
  exact hsorted_md

theorem claim_C1_witness :
    (([(("Dune (downloaded 2024-02-01 00-00).json" : String),
        ({ title := some "Dune", author := some "H", format := some "ebook",
           percent := some (some 65) } : Rec)),
      (("Dune (downloaded 2023-01-01 00-00).json" : String),
        ({ title := some "Dune", author := some "H", format := some "ebook",
           percent := some (some 40) } : Rec))].map Prod.fst).Nodup) ∧
    mergePass (mergePass [(("Dune (downloaded 2024-02-01 00-00).json" : String),
        ({ title := some "Dune", author := some "H", format := some "ebook",
           percent := some (some 65) } : Rec)),
      (("Dune (downloaded 2023-01-01 00-00).json" : String),
        ({ title := some "Dune", author := some "H", format := some "ebook",
           percent := some (some 40) } : Rec))]) =
      mergePass [(("Dune (downloaded 2024-02-01 00-00).json" : String),
        ({ title := some "Dune", author := some "H", format := some "ebook",
           percent := some (some 65) } : Rec)),
      (("Dune (downloaded 2023-01-01 00-00).json" : String),
        ({ title := some "Dune", author := some "H", format := some "ebook",
           percent := some (some 40) } : Rec))] :=
  ⟨by decide, claim_C1 _ (by decide)⟩

/-! ### Skipped records (claim C9) -/

theorem mergeCountFold_fst : ∀ (gs : List (GKey × Dir)) (st : Dir × Nat),
    (gs.foldl (fun st g =>
      match mergeGroup g.2 with
      | (_, _, toDelete) => (applyGroup st.1 g.2, st.2 + toDelete.length)) st).1 =
    gs.foldl (fun acc g => applyGroup acc g.2) st.1
  | [], _ => rfl
  | _g :: gs, _st => mergeCountFold_fst gs _

theorem merge_duplicate_files_fst (d : Dir) :
    (merge_duplicate_files d).1 =
      (dupeGroups (sortByName d)).foldl (fun acc g => applyGroup acc g.2) (sortByName d) :=
  mergeCountFold_fst (dupeGroups (sortByName d)) (sortByName d, 0)

/-- The duplicate groups of a name-unique directory have unique keys, and
each is exactly the slice of the directory with its key, nonempty. -/
theorem dupeGroups_props (files : Dir) :
    ((dupeGroups files).map Prod.fst).Nodup ∧
    (∀ g ∈ dupeGroups files, g.2 = filterKey g.1 files ∧ g.2 ≠ []) := by
  constructor
  · have hsub : ((dupeGroups files).map Prod.fst).Sublist
        ((groupsOf files).map Prod.fst) :=
      (List.filter_sublist _).map Prod.fst
    exact hsub.nodup (groupFiles_keys_nodup files [] (by simp))
  · intro g hg
    have hg2 : g ∈ groupsOf files := List.mem_of_mem_filter hg
    obtain ⟨k0, l⟩ := g
    refine ⟨groupsOf_eq_filterKey hg2, ?_⟩
    have hlen : 1 < l.length := by
      have := List.of_mem_filter hg
      simpa using this
    intro hc
    have hc' : l = [] := hc
    rw [hc'] at hlen
    simp at hlen

/-- C9 (amended): a record whose JSON fails to parse or that lacks one of
the three key fields is excluded from grouping and survives both merge
passes untouched (never merged, never deleted, never aborting the run);
`merge_duplicates.py` prints a `SKIP (parse error)` diagnostic for it, but
`build_index.merge_duplicate_files` prints nothing at all for its skips. -/
theorem claim_C9 (d : Dir) (hnd : (d.map Prod.fst).Nodup) :
    (∀ p ∈ d, recKey p.2 = none →
      (p ∈ mergePass d ∧
       ("SKIP (parse error): " ++ p.1) ∈ mergeSkips d ∧
       p ∈ (merge_duplicate_files d).1)) ∧
    (merge_duplicate_files d).2.2 = [] := by
  have hfnd : ((sortByName d).map Prod.fst).Nodup := by
    have hperm := (sortByName_perm d).map Prod.fst
    exact hperm.nodup_iff.mpr hnd
  obtain ⟨-, -, hkeep⟩ := mergePass_spec d hnd
  obtain ⟨hdknd, hdprop⟩ := dupeGroups_props (sortByName d)
  obtain ⟨-, -, hkeep2⟩ := mergeFold_spec (dupeGroups (sortByName d)) (sortByName d)
    hfnd hdknd hdprop
  refine ⟨?_, rfl⟩
  intro p hp h0
  have hp' : p ∈ sortByName d := (sortByName_perm d).mem_iff.mpr hp
  refine ⟨hkeep p hp' h0, ?_, ?_⟩
  · rw [mergeSkips]
    exact List.mem_filterMap.mpr ⟨p, hp', by rw [if_pos h0]⟩
  · rw [merge_duplicate_files_fst]
    exact hkeep2 p hp' h0

theorem claim_C9_witness :
    (([(("bad.json" : String), ({} : Rec)),
      (("good.json" : String),
        ({ title := some "T", author := some "A", format := some "e" } : Rec))].map
        Prod.fst).Nodup) ∧
    recKey ({} : Rec) = none ∧
    (("bad.json" : String), ({} : Rec)) ∈
      mergePass [(("bad.json" : String), ({} : Rec)),
        (("good.json" : String),
          ({ title := some "T", author := some "A", format := some "e" } : Rec))] :=
  ⟨by decide, by decide,
    ((claim_C9 _ (by decide)).1 _ (List.mem_cons_self _ _) (by decide)).1⟩

/-- C9 counterexample to the claim as stated: `build_index`'s merge pass
skips this unparseable record but emits no diagnostic whatsoever (its
`except Exception: continue` is silent), so the skip is silently dropped
there. -/
theorem claim_C9_counterexample :
    recKey ({} : Rec) = none ∧
    (merge_duplicate_files [(("bad.json" : String), ({} : Rec))]).1 =
      [(("bad.json" : String), ({} : Rec))] ∧
    (merge_duplicate_files [(("bad.json" : String), ({} : Rec))]).2.2 = [] := by
  refine ⟨rfl, ?_, rfl⟩
  decide

/-! ### Write/delete failures (claim C8) -/

theorem deleteFiles_ok (rOk : String → Bool) : ∀ (ns : List String) (st : Dir × Nat),
    (∃ res, deleteFiles rOk ns st = Except.ok res) ↔ ∀ n ∈ ns, rOk n = true
  | [], st =>
    iff_of_true ⟨st, rfl⟩ (fun n hn => absurd hn (List.not_mem_nil n))
  | n :: ns, (d, c) => by
    by_cases hr : rOk n = true
    · rw [deleteFiles, if_pos hr,
        deleteFiles_ok rOk ns (d.filter (fun p => decide (p.1 ≠ n)), c + 1)]
      constructor
      · intro h n' hn'
        rcases List.mem_cons.mp hn' with rfl | hn'
        · exact hr
        · exact h n' hn'
      · intro h n' hn'
        exact h n' (List.mem_cons_of_mem n hn')
    · rw [deleteFiles, if_neg hr]
      refine iff_of_false ?_ ?_
      · rintro ⟨res, hres⟩
        cases hres
      · intro h
        exact hr (h n (List.mem_cons_self n ns))

theorem processGroupE_ok (wOk rOk : String → Bool) (st : Dir × Nat) (g : GKey × Dir) :
    (∃ res, processGroupE wOk rOk st g = Except.ok res) ↔
      (wOk (mergeGroup g.2).2.1 = true ∧ ∀ n ∈ (mergeGroup g.2).2.2, rOk n = true) := by
  show (∃ res,
    (if wOk (mergeGroup g.2).2.1 then
      deleteFiles rOk (mergeGroup g.2).2.2
        (st.1.map (fun p => if p.1 = (mergeGroup g.2).2.1 then (p.1, (mergeGroup g.2).1) else p),
          st.2)
    else Except.error (mergeGroup g.2).2.1) = Except.ok res) ↔ _
  by_cases hw : wOk (mergeGroup g.2).2.1 = true
  · rw [if_pos hw, deleteFiles_ok]
    simp [hw]
  · rw [if_neg hw]
    refine iff_of_false ?_ ?_
    · rintro ⟨res, hres⟩
      cases hres
    · intro h
      exact hw h.1

theorem mergeMainE_fold_ok (wOk rOk : String → Bool) :
    ∀ (gs : List (GKey × Dir)) (st : Dir × Nat),
    (∃ res, gs.foldlM (processGroupE wOk rOk) st = Except.ok res) ↔
      ∀ g ∈ gs, wOk (mergeGroup g.2).2.1 = true ∧ ∀ n ∈ (mergeGroup g.2).2.2, rOk n = true
  | [], st => by
    refine iff_of_true ⟨st, rfl⟩ (fun g hg => absurd hg (List.not_mem_nil g))
  | g :: gs, st => by
    rw [List.foldlM_cons]
    cases hpe : processGroupE wOk rOk st g with
    | error e =>
      have hg : ¬(wOk (mergeGroup g.2).2.1 = true ∧
          ∀ n ∈ (mergeGroup g.2).2.2, rOk n = true) := by
        rw [← processGroupE_ok wOk rOk st g]
        rintro ⟨res, hres⟩
        rw [hpe] at hres
        cases hres
      refine iff_of_false ?_ ?_
      · rintro ⟨res, hres⟩
        cases hres
      · intro h
        exact hg (h g (List.mem_cons_self g gs))
    | ok st' =>
      have hg : wOk (mergeGroup g.2).2.1 = true ∧
          ∀ n ∈ (mergeGroup g.2).2.2, rOk n = true :=
        (processGroupE_ok wOk rOk st g).mp ⟨st', hpe⟩
      show (∃ res, gs.foldlM (processGroupE wOk rOk) st' = Except.ok res) ↔ _
      rw [mergeMainE_fold_ok wOk rOk gs st']
      constructor
      · intro h g' hg'
        rcases List.mem_cons.mp hg' with rfl | hg'
        · exact hg
        · exact h g' hg'
      · intro h g' hg'
        exact h g' (List.mem_cons_of_mem g hg')

/-- C8 (amended): the run completes — the group loop finishes and the
summary is reached — exactly when every duplicate group's keeper write and
every scheduled deletion succeed.  A single write or delete failure raises
out of the loop: no later group is processed and no summary is printed,
because `main` wraps no `try` around the write/delete section. -/
theorem claim_C8 (wOk rOk : String → Bool) (d : Dir) :
    (∃ res, mergeMainE wOk rOk d = Except.ok res) ↔
      ∀ g ∈ sortBy (fun a b => keyLe a.1 b.1) (dupeGroups (sortByName d)),
        wOk (mergeGroup g.2).2.1 = true ∧ ∀ n ∈ (mergeGroup g.2).2.2, rOk n = true :=
  mergeMainE_fold_ok wOk rOk
    (sortBy (fun a b => keyLe a.1 b.1) (dupeGroups (sortByName d))) (sortByName d, 0)

theorem claim_C8_witness :
    ∃ res, mergeMainE (fun _ => true) (fun _ => true)
      [(("a1.json" : String),
        ({ title := some "A", author := some "X", format := some "e" } : Rec)),
       (("a2.json" : String),
        ({ title := some "A", author := some "X", format := some "e" } : Rec))] =
      Except.ok res :=
  (claim_C8 (fun _ => true) (fun _ => true) _).mpr (by decide)

/-- C8 counterexample to the claim as stated: with two duplicate groups
(`A` in `a1/a2.json`, `B` in `b1/b2.json`) and a write failure on the first
group's keeper `a1.json`, the whole run returns an error: the second group
is never processed and no summary is reported — the failure is not isolated
to its group. -/
theorem claim_C8_counterexample :
    mergeMainE (fun n => !(n == "a1.json")) (fun _ => true)
      [(("a1.json" : String),
        ({ title := some "A", author := some "X", format := some "e" } : Rec)),
       (("a2.json" : String),
        ({ title := some "A", author := some "X", format := some "e" } : Rec)),
       (("b1.json" : String),
        ({ title := some "B", author := some "X", format := some "e" } : Rec)),
       (("b2.json" : String),
        ({ title := some "B", author := some "X", format := some "e" } : Rec))] =
      Except.error "a1.json" := rfl
